import Mathlib

/-!
# Verification of google/safearchive: path sanitizer and filtering readers

Shallow embedding of the safearchive core (sanitizer package, tar and zip
filtering readers) in Lean 4, together with proofs about the embedded code.

Strings are manipulated through their underlying character lists; the Go
string/stdlib primitives used by the source (strings.NewReplacer,
strings.Split/Join/TrimPrefix/TrimSuffix/TrimLeft, path/filepath.Clean) are
embedded as executable functions over `List Char` with `String` wrappers.
-/

set_option maxRecDepth 4000

namespace Safearchive

/-! ## Go string primitives (POSIX sanitizer) -/

/-- `strings.NewReplacer("\\", "/").Replace`: every backslash becomes a slash. -/
def replaceBackslashWithSlash (s : String) : String :=
  ⟨s.data.map (fun c => if c = '\\' then '/' else c)⟩

/-- Split a character list on the separator `sep`, keeping empty segments
(the semantics of `strings.Split`, and the segment structure
`path.Clean` iterates over). Always returns at least one segment. -/
def splitSep (sep : Char) : List Char → List (List Char)
  | [] => [[]]
  | c :: rest =>
    let r := splitSep sep rest
    if c = sep then [] :: r
    else
      match r with
      | s :: ss => (c :: s) :: ss
      | [] => [[c]]

/-- Join segments with the separator `sep` (the semantics of `strings.Join`). -/
def joinSep (sep : Char) : List (List Char) → List Char
  | [] => []
  | [s] => s
  | s :: rest => s ++ sep :: joinSep sep rest

/-- Splitting on `'/'`. -/
def splitSlash : List Char → List (List Char) := splitSep '/'

/-- Joining with `'/'`. -/
def joinSlash : List (List Char) → List Char := joinSep '/'

/-- The component loop of Go `path.Clean` (which `filepath.Clean` is on
non-Windows targets): skip empty and `.` segments; on `..` pop the last kept
segment, or, when nothing is poppable, drop the `..` if the path is rooted
and keep it otherwise.  `acc` is the stack of kept segments (most recent
first); the final result is in input order. -/
def cleanSegs (rooted : Bool) (acc : List (List Char)) : List (List Char) → List (List Char)
  | [] => acc.reverse
  | seg :: rest =>
    if seg = [] ∨ seg = ['.'] then cleanSegs rooted acc rest
    else if seg = ['.', '.'] then
      match acc with
      | [] => if rooted then cleanSegs rooted [] rest else cleanSegs rooted [seg] rest
      | top :: acc' =>
        if top = ['.', '.'] then cleanSegs rooted (seg :: acc) rest
        else cleanSegs rooted acc' rest
    else cleanSegs rooted (seg :: acc) rest

/-- Lexical path normalization with separator `sep`: collapse duplicate
separators and `.`/`..` elements, keeping a leading separator if present. -/
def goCleanSep (sep : Char) (path : String) : String :=
  if path = "" then "."
  else
    let rooted := path.data.head? = some sep
    let joined := joinSep sep (cleanSegs rooted [] (splitSep sep path.data))
    let out := if rooted then sep :: joined else joined
    if out = [] then "." else ⟨out⟩

/-- Embedding of Go `path.Clean` (= `filepath.Clean` on non-Windows):
lexically normalize, collapsing duplicate separators and `.`/`..` elements. -/
def goClean (path : String) : String := goCleanSep '/' path

/-- `strings.TrimPrefix(s, "/")`: drop one leading slash if present. -/
def trimPrefixSlash (s : String) : String :=
  if s.data.head? = some '/' then ⟨s.data.tail⟩ else s

/-! ## sanitizer.sanitizePath / sanitizer.SanitizePath (non-Windows build) -/

/-- Embedding of the non-Windows `sanitizer.sanitizePath`:
normalize separators, then `strings.TrimPrefix(filepath.Clean("/"+in), "/")`. -/
def sanitizePath (input : String) : String :=
  let input := replaceBackslashWithSlash input
  trimPrefixSlash (goClean ("/" ++ input))

/-- Embedding of `sanitizer.SanitizePath` on a non-Windows build
(`os.PathSeparator` is `'/'`): run `sanitizePath`, then restore a trailing
separator when the input ended with one and the result is non-empty. -/
def SanitizePath (input : String) : String :=
  let sanitized := sanitizePath input
  if 0 < input.length ∧
      (input.data.getLast? = some '/' ∨ input.data.getLast? = some '\\') ∧
      0 < sanitized.length
  then sanitized ++ "/"
  else sanitized

/-! ## Windows sanitizer (`sanitizer` package, windows build)

The Windows `sanitizePath` first replaces `:`, `/` and `?` by `\`, so the
strings reaching its two `filepath.Clean` calls contain `\` as the only
separator character and no drive-letter (`:`-based) volume; the re-clean
after `strings.TrimLeft` removes any leading separators a volume prefix
could have protected, so the volume-free normalization below computes the
same cleaned result as Windows `filepath.Clean` on these call sites. -/

/-- `strings.NewReplacer(":", "\\", "/", "\\", "?", "\\").Replace`. -/
def replacerWin (s : String) : String :=
  ⟨s.data.map (fun c => if c = ':' ∨ c = '/' ∨ c = '?' then '\\' else c)⟩

/-- `strings.TrimLeft(s, "\\")`: drop all leading backslashes. -/
def trimLeftBackslash (s : String) : String :=
  ⟨s.data.dropWhile (fun c => c = '\\')⟩

/-- `strings.Cut(s, string(sep))` on character lists:
the part before the first `sep`, the part after it, and whether it was found. -/
def cutChar (sep : Char) : List Char → List Char × List Char × Bool
  | [] => ([], [], false)
  | c :: rest =>
    if c = sep then ([], rest, true)
    else
      let r := cutChar sep rest
      (c :: r.1, r.2.1, r.2.2)

/-- ASCII upper-casing, the effective behavior of `strings.ToUpper` on the
characters `isReservedName` compares against (`CON`, `PRN`, …): no non-ASCII
character upper-cases to any letter of those names. -/
def upperAscii (c : Char) : Char := c.toUpper

/-- `strings.EqualFold` restricted to ASCII folding, exact for the
comparisons in `isReservedName` (patterns `IN$`, `OUT$`). -/
def eqFoldList (a b : List Char) : Bool :=
  a.length = b.length && (a.zip b).all (fun p => upperAscii p.1 = upperAscii p.2)

/-- The Unicode White_Space set trimmed by `strings.TrimSpace`. -/
def goIsSpace (c : Char) : Bool :=
  c = '\u0020' || c = '\u0009' || c = '\u000A' || c = '\u000B' || c = '\u000C' ||
  c = '\u000D' || c = '\u0085' || c = '\u00A0' || c = '\u1680' ||
  ('\u2000' ≤ c && c ≤ '\u200A') ||
  c = '\u2028' || c = '\u2029' || c = '\u202F' || c = '\u205F' || c = '\u3000'

/-- The `reservedNameLen` computed by the windows-build
`sanitizer.isReservedName`: the length of the reserved-name prefix of
`name`, or `0` when there is none (also for names shorter than 3). -/
def reservedNameLength (cs : List Char) : Nat :=
  let nameLen := cs.length
  if nameLen < 3 then 0
  else
    let prefix3 := (cs.take 3).map upperAscii
    if prefix3 = ['C', 'O', 'N'] then
      -- CONIN$ / CONOUT$ console handles extend CON
      3 +
        (if 6 ≤ nameLen ∧ cs.getD 5 ' ' = '$' ∧
            eqFoldList ((cs.drop 3).take 3) ['I', 'N', '$'] = true then 3 else 0) +
        (if 7 ≤ nameLen ∧ cs.getD 6 ' ' = '$' ∧
            eqFoldList ((cs.drop 3).take 4) ['O', 'U', 'T', '$'] = true then 4 else 0)
    else if prefix3 = ['P', 'R', 'N'] ∨ prefix3 = ['A', 'U', 'X'] ∨
        prefix3 = ['N', 'U', 'L'] then 3
    else if prefix3 = ['C', 'O', 'M'] ∨ prefix3 = ['L', 'P', 'T'] then
      -- must be followed by a digit 1-9 or a superscript digit ¹ ² ³
      if 4 ≤ nameLen then
        let d := cs.getD 3 ' '
        if d = '1' ∨ d = '2' ∨ d = '3' ∨ d = '4' ∨ d = '5' ∨ d = '6' ∨
            d = '7' ∨ d = '8' ∨ d = '9' then 4
        else if d = '¹' ∨ d = '²' ∨ d = '³' then 4
        else 0
      else 0
    else 0

/-- Embedding of the windows-build `sanitizer.isReservedName`: reports whether
`name` is a Windows reserved device name or console handle, possibly followed
by whitespace only.  The Go code indexes bytes; this embedding indexes
characters, which coincides on every name the byte-level code accepts (the
accepted prefixes are ASCII, and the two-byte superscript digits `¹²³`
checked via their UTF-8 bytes are single characters here, so the reserved
length 5 in bytes is 4 in characters with the same remainder).
`strings.TrimSpace(rest) == ""` is embedded as `rest.all goIsSpace`. -/
def isReservedName (name : String) : Bool :=
  decide (reservedNameLength name.data ≠ 0) &&
    (name.data.drop (reservedNameLength name.data)).all goIsSpace

/-- One component of the reserved-name pass: split at the first `.` into base
and extension, append `-safe` to a reserved base, re-attach the extension. -/
def processPart (part : List Char) : List Char :=
  let cut := cutChar '.' part
  let base := cut.1
  let ext := cut.2.1
  base ++ (if isReservedName ⟨base⟩ then "-safe".data else []) ++
    (if ext ≠ [] then '.' :: ext else [])

/-- Fuel-bounded form of the `strings.Cut`-driven component loop below;
each iteration consumes at least the cut separator, so `length + 1` fuel
always suffices. -/
def reservedPartsAux (fuel : Nat) (cs : List Char) : List (List Char) :=
  match fuel with
  | 0 => []
  | fuel + 1 =>
    if cs = [] then []
    else
      let cut := cutChar '\\' cs
      cut.1 :: reservedPartsAux fuel cut.2.1

/-- The component loop of the windows `sanitizePath`, which repeatedly cuts
the next backslash-separated component off the cleaned path with
`strings.Cut` until the remainder is empty: the list of components it
visits. -/
def reservedParts (cs : List Char) : List (List Char) :=
  reservedPartsAux (cs.length + 1) cs

/-- The reserved-name guard pass of the windows `sanitizePath`: rewrite each
backslash-separated component of the cleaned path with `processPart`,
re-joining with `\` (the `strings.Builder` loop of the source). -/
def reservedNamePass (tmp : String) : String :=
  ⟨joinSep '\\' ((reservedParts tmp.data).map processPart)⟩

/-- Embedding of the windows-build `sanitizer.sanitizePath`:
substitute `:` `/` `?` by `\`, double-clean
(`clean(trimLeft(clean("\" + in), "\"))`), then the reserved-name guard. -/
def sanitizePathWin (input : String) : String :=
  let input := replacerWin input
  let tmp := goCleanSep '\\' (trimLeftBackslash (goCleanSep '\\' ("\\" ++ input)))
  reservedNamePass tmp

/-- Embedding of `sanitizer.SanitizePath` on a Windows build
(`os.PathSeparator` is `'\'`). -/
def SanitizePathWin (input : String) : String :=
  let sanitized := sanitizePathWin input
  if 0 < input.length ∧
      (input.data.getLast? = some '/' ∨ input.data.getLast? = some '\\') ∧
      0 < sanitized.length
  then sanitized ++ "\\"
  else sanitized

/-- Character-wise case-insensitive match of `cs` against the upper-case
template `ps`: each character equals the template character or its
lower-case form.  This is the claim's reading of "matches a reserved device
name" (case-insensitive in the letters; `$`, digits and superscripts are
their own lower case). -/
def foldMatch : List Char → List Char → Prop
  | [], [] => True
  | c :: cs, p :: ps => (c = p ∨ c = p.toLower) ∧ foldMatch cs ps
  | _, _ => False

/-- The reserved-base pattern stated by the claim: `CON`, `PRN`, `AUX`,
`NUL`, `CONIN$`, `CONOUT$`, or `COM`/`LPT` followed by an ASCII digit `1`-`9`
or a superscript digit `¹ ² ³` — matched case-insensitively and optionally
followed by trailing ASCII spaces. -/
def specReservedBase (base : List Char) : Prop :=
  ∃ core tail, base = core ++ tail ∧ (∀ ch ∈ tail, ch = ' ') ∧
    (foldMatch core "CON".data ∨ foldMatch core "PRN".data ∨
      foldMatch core "AUX".data ∨ foldMatch core "NUL".data ∨
      foldMatch core "CONIN$".data ∨ foldMatch core "CONOUT$".data ∨
      ∃ pre d, core = pre ++ [d] ∧
        (foldMatch pre "COM".data ∨ foldMatch pre "LPT".data) ∧
        (d = '1' ∨ d = '2' ∨ d = '3' ∨ d = '4' ∨ d = '5' ∨ d = '6' ∨
          d = '7' ∨ d = '8' ∨ d = '9' ∨ d = '¹' ∨ d = '²' ∨ d = '³'))

/-! ## Shared filtering-reader primitives -/

/-- `strings.TrimSuffix(s, "/")`: drop one trailing slash if present. -/
def trimSuffixSlash (s : String) : String :=
  if s.data.getLast? = some '/' then ⟨s.data.dropLast⟩ else s

/-- `strings.ToLower` (ASCII folding; the filter only compares the folded
keys for equality). -/
def lowerString (s : String) : String := ⟨s.data.map Char.toLower⟩

/-- `strings.Split(s, "/")`. -/
def splitPath (s : String) : List String := (splitSep '/' s.data).map (fun l => ⟨l⟩)

/-- The prefixes probed by the symlink-traversal walk:
`strings.Join(n[0:i], "/")` for `i = 1 … len(n)`. -/
def subPaths (n : List String) : List String :=
  (List.range n.length).map (fun i => ⟨joinSep '/' ((n.take (i + 1)).map String.data)⟩)

/-- A string matches the short-filename regular expression `~\d+\.?` iff it
contains a `~` immediately followed by an ASCII digit (the `\d+` needs one
digit and the `\.?` is optional, so neither constrains matching). -/
def hasTildeDigit : List Char → Bool
  | [] => false
  | '~' :: c :: rest => if c.isDigit then true else hasTildeDigit (c :: rest)
  | _ :: rest => hasTildeDigit rest

/-- Embedding of `sanitizer.HasWindowsShortFilenames`: normalize `\` to `/`,
split on `/`, and report whether any component matches `~\d+\.?`. -/
def HasWindowsShortFilenames (s : String) : Bool :=
  (splitPath (replaceBackslashWithSlash s)).any (fun part => hasTildeDigit part.data)

/-! ## The tar filtering reader (`tar` package) -/

namespace Tar

/-- `archive/tar` type flags used by the filter. -/
def TypeReg : Char := '0'
def TypeLink : Char := '1'
def TypeSymlink : Char := '2'
def TypeDir : Char := '5'

/-- The `tar.SecurityMode` flags (bit masks). -/
def SkipSpecialFiles : Nat := 1
def SanitizeFileMode : Nat := 2
def SanitizeFilenames : Nat := 4
def DropXattrs : Nat := 16
def PreventSymlinkTraversal : Nat := 32
def PreventCaseInsensitiveSymlinkTraversal : Nat := 64
def SkipWindowsShortFilenames : Nat := 128

def MaximumSecurityMode : Nat :=
  SkipSpecialFiles ||| SanitizeFileMode ||| SanitizeFilenames |||
    PreventSymlinkTraversal ||| DropXattrs |||
    PreventCaseInsensitiveSymlinkTraversal ||| SkipWindowsShortFilenames

/-- `tar.DefaultSecurityMode` on a non-Windows build. -/
def DefaultSecurityMode : Nat := SanitizeFilenames ||| PreventSymlinkTraversal

/-- The fields of `tar.Header` read or written by `Reader.Next`. -/
structure Header where
  typeflag : Char
  name : String
  linkname : String
  mode : Int
  xattrs : List (String × String)
  paxRecords : List (String × String)
deriving Repr, DecidableEq

def allowListedPaxKeys : List String := ["ctime", "mtime", "atime"]

/-- `leaveKeys`: keep only the allow-listed keys of a record map
(records as association lists). -/
def leaveKeys (recs : List (String × String)) (allow : List String) :
    List (String × String) :=
  recs.filter (fun kv => allow.contains kv.1)

/-- Go `h.Mode & 0777` on `int64`: two's-complement AND with the low-9-bit
mask, i.e. the nonnegative remainder modulo `2^9`. -/
def maskMode777 (m : Int) : Int := Int.emod m 512

/-- The symlink-filter comparison key (`Reader.Next`, PreventSymlinkTraversal
block): `SanitizePath` of the current name, a single trailing `/` stripped,
lower-cased when case-insensitive traversal detection is on. -/
def key (m : Nat) (name : String) : String :=
  let hName := trimSuffixSlash (SanitizePath name)
  if m &&& PreventCaseInsensitiveSymlinkTraversal ≠ 0 then lowerString hName else hName

/-- Which branch of the `Reader.Next` loop handled an entry
(`emitted` = returned to the caller, the others = `continue`). -/
inductive Verdict
  | emitted
  | droppedSpecial
  | droppedShort
  | droppedSymlink
deriving Repr, DecidableEq

/-- The `DropXattrs` mutation at the end of the `Next` loop. -/
def applyDropXattrs (m : Nat) (h : Header) : Header :=
  if m &&& DropXattrs ≠ 0 then
    { h with xattrs := [], paxRecords := leaveKeys h.paxRecords allowListedPaxKeys }
  else h

/-- The in-place header mutations of the `Next` loop: mode sanitization
(`SanitizeFileMode`), then filename sanitization (`SanitizeFilenames`). -/
def mutate (m : Nat) (h : Header) : Header :=
  let h := if m &&& SanitizeFileMode ≠ 0 then { h with mode := maskMode777 h.mode } else h
  if m &&& SanitizeFilenames ≠ 0 then { h with name := SanitizePath h.name } else h

/-- One iteration of the `Reader.Next` loop on raw header `h` with symlink
set `s`: the verdict, the emitted (mutated) header if any, and the updated
symlink set. -/
def step (m : Nat) (s : List String) (h : Header) : Verdict × Option Header × List String :=
  if m &&& SkipSpecialFiles ≠ 0 ∧ h.typeflag ≠ TypeReg ∧ h.typeflag ≠ TypeDir ∧
      h.typeflag ≠ TypeSymlink then
    (.droppedSpecial, none, s)
  else
    let h := mutate m h
    if m &&& SkipWindowsShortFilenames ≠ 0 ∧ HasWindowsShortFilenames h.name then
      (.droppedShort, none, s)
    else if m &&& PreventSymlinkTraversal ≠ 0 then
      let hName := key m h.name
      if (subPaths (splitPath hName)).any (fun p => s.contains p) then
        (.droppedSymlink, none, s)
      else
        (.emitted, some (applyDropXattrs m h),
          if h.linkname ≠ "" then hName :: s else s)
    else
      (.emitted, some (applyDropXattrs m h), s)

/-- The stream of headers yielded by successive `Next` calls, starting from
symlink set `s`. -/
def readAll (m : Nat) (s : List String) : List Header → List Header
  | [] => []
  | h :: rest =>
    match step m s h with
    | (_, some h', s') => h' :: readAll m s' rest
    | (_, none, s') => readAll m s' rest

/-- The per-entry verdicts of the `Next` loop over a whole archive. -/
def verdicts (m : Nat) (s : List String) : List Header → List Verdict
  | [] => []
  | h :: rest => (step m s h).1 :: verdicts m (step m s h).2.2 rest

end Tar

/-! ## The zip filtering reader (`zip` package) -/

namespace Zip

/-- The `zip.SecurityMode` flags (bit masks; note the values differ from the
tar package). -/
def PreventSymlinkTraversal : Nat := 1
def SkipSpecialFiles : Nat := 2
def SanitizeFileMode : Nat := 4
def SanitizeFilenames : Nat := 8

def DefaultSecurityMode : Nat := SanitizeFilenames ||| PreventSymlinkTraversal

def MaximumSecurityMode : Nat := DefaultSecurityMode ||| SanitizeFileMode ||| SkipSpecialFiles

/-- `io/fs.FileMode` bits (a `uint32`; `ModeDir` is the top bit). -/
def ModeDir : Nat := 2 ^ 31
def ModeAppend : Nat := 2 ^ 30
def ModeExclusive : Nat := 2 ^ 29
def ModeTemporary : Nat := 2 ^ 28
def ModeSymlink : Nat := 2 ^ 27
def ModeDevice : Nat := 2 ^ 26
def ModeNamedPipe : Nat := 2 ^ 25
def ModeSocket : Nat := 2 ^ 24
def ModeSetuid : Nat := 2 ^ 23
def ModeSetgid : Nat := 2 ^ 22
def ModeCharDevice : Nat := 2 ^ 21
def ModeSticky : Nat := 2 ^ 20
def ModeIrregular : Nat := 2 ^ 19

/-- Go `a &^ b` on a `uint32`-valued `fs.FileMode`: AND with the complement
of `b` in 32 bits. -/
def andNot (a b : Nat) : Nat := a &&& (0xFFFFFFFF ^^^ b)

/-- A `zip.File` as seen by `applyMagic`: the entry name, the `fs.FileMode`
returned by `File.Mode()` (and replaced by `File.SetMode`), and the stored
entry body, which for a symlink entry holds the link target.  `applyMagic`
never reads the body. -/
structure File where
  name : String
  mode : Nat
  content : String
deriving Repr, DecidableEq

/-- The `linkname` of the format-agnostic entry-header contract for a zip
entry: empty for non-links; for a symlink entry, the target (which the zip
format stores as the entry's body).  `zip.FileHeader` itself has no linkname
field, and `applyMagic` never consults this. -/
def linkname (f : File) : String :=
  if f.mode &&& ModeSymlink ≠ 0 then f.content else ""

/-- `isSpecialFile`: the mode has any of the device, named-pipe, socket,
char-device or irregular bits. -/
def isSpecialFile (f : File) : Bool :=
  [ModeDevice, ModeNamedPipe, ModeSocket, ModeCharDevice, ModeIrregular].any
    (fun m => f.mode &&& m ≠ 0)

/-- The `SanitizeFileMode` loop of `applyMagic`: clear the temporary, append,
exclusive, set-user-id, set-group-id and sticky bits. -/
def sanitizeMode (amode : Nat) : Nat :=
  [ModeTemporary, ModeAppend, ModeExclusive, ModeSetuid, ModeSetgid, ModeSticky].foldl
    andNot amode

/-- Which branch of the `applyMagic` loop handled an entry. -/
inductive Verdict
  | emitted
  | droppedSymlink
  | droppedSpecial
deriving Repr, DecidableEq

/-- The tail of one `applyMagic` iteration after the symlink filter: the
special-file skip, then mode sanitization, then append. -/
def finishStep (m : Nat) (s : List String) (f : File) :
    Verdict × Option File × List String :=
  if m &&& SkipSpecialFiles ≠ 0 ∧ isSpecialFile f then (.droppedSpecial, none, s)
  else if m &&& SanitizeFileMode ≠ 0 then
    (.emitted, some { f with mode := sanitizeMode f.mode }, s)
  else (.emitted, some f, s)

/-- The filename-sanitization mutation at the head of the `applyMagic`
loop body. -/
def sanName (m : Nat) (fp : File) : File :=
  if m &&& SanitizeFilenames ≠ 0 then { fp with name := SanitizePath fp.name } else fp

/-- One iteration of the `applyMagic` loop.  Source order: filename
sanitization, then the symlink-traversal filter — whose set insertion
happens even if the entry is skipped as special afterwards — then the
special-file skip, then mode sanitization. -/
def step (m : Nat) (s : List String) (fp : File) : Verdict × Option File × List String :=
  let f := sanName m fp
  if m &&& PreventSymlinkTraversal ≠ 0 then
    let fName := trimSuffixSlash f.name
    if (subPaths (splitPath fName)).any (fun p => s.contains p) then
      (.droppedSymlink, none, s)
    else
      finishStep m (if f.mode &&& ModeSymlink ≠ 0 then fName :: s else s) f
  else
    finishStep m s f

/-- The `applyMagic` loop over the remaining files with symlink set `s`. -/
def loop (m : Nat) (s : List String) : List File → List File
  | [] => []
  | fp :: rest =>
    match step m s fp with
    | (_, some f, s') => f :: loop m s' rest
    | (_, none, s') => loop m s' rest

/-- Embedding of `zip.applyMagic`. -/
def applyMagic (files : List File) (securityMode : Nat) : List File :=
  loop securityMode [] files

/-- The per-entry verdicts of `applyMagic` over a whole archive. -/
def verdicts (m : Nat) (s : List String) : List File → List Verdict
  | [] => []
  | fp :: rest => (step m s fp).1 :: verdicts m (step m s fp).2.2 rest

/-- The `zip.Reader` state relevant to `SetSecurityMode`: the immutable
original file list, the visible (filtered) file list, and the mode. -/
structure Reader where
  originalFiles : List File
  file : List File
  securityMode : Nat
deriving Repr, DecidableEq

/-- Embedding of `zip.Reader.SetSecurityMode`: re-filter the original list
under the new mode. -/
def SetSecurityMode (r : Reader) (sm : Nat) : Reader :=
  { r with file := applyMagic r.originalFiles sm, securityMode := sm }

/-- Embedding of `zip.NewReader`: wrap the decoder's file list and apply the
default security mode. -/
def NewReader (files : List File) : Reader :=
  SetSecurityMode { originalFiles := files, file := files, securityMode := 0 }
    DefaultSecurityMode

end Zip

/-- One step of the clean loop on the segment stack (most recent first). -/
def stepAcc (rooted : Bool) (acc : List (List Char)) (seg : List Char) : List (List Char) :=
  if seg = [] ∨ seg = ['.'] then acc
  else if seg = ['.', '.'] then
    match acc with
    | [] => if rooted then [] else [seg]
    | top :: acc' => if top = ['.', '.'] then seg :: acc else acc'
  else seg :: acc

/-- The cleaned component list underlying `sanitizePath p`. -/
def comps (p : String) : List (List Char) :=
  cleanSegs true [] (splitSep '/' (replaceBackslashWithSlash p).data)

/-- Does the string begin with a drive-letter prefix (`C:`…)? -/
def startsWithDrive (s : String) : Bool :=
  match s.data with
  | c :: ':' :: _ => c.isAlpha
  | _ => false

/-! ## Structural lemmas: splitting, joining, and the clean loop -/

theorem splitSep_ne_nil (sep : Char) (cs : List Char) : splitSep sep cs ≠ [] := by
  cases cs with
  | nil => simp [splitSep]
  | cons c rest =>
    simp only [splitSep]
    by_cases hc : c = sep
    · simp [hc]
    · simp only [if_neg hc]
      cases h : splitSep sep rest <;> simp

theorem mem_splitSep (sep : Char) (cs : List Char) :
    ∀ x ∈ splitSep sep cs, ∀ c ∈ x, c ≠ sep ∧ c ∈ cs := by
  induction cs with
  | nil =>
    intro x hx
    simp only [splitSep, List.mem_singleton] at hx
    subst hx
    simp
  | cons a rest ih =>
    intro x hx c hc
    simp only [splitSep] at hx
    by_cases ha : a = sep
    · rw [if_pos ha] at hx
      rcases List.mem_cons.mp hx with h | h
      · subst h; simp at hc
      · obtain ⟨h1, h2⟩ := ih x h c hc
        exact ⟨h1, List.mem_cons_of_mem _ h2⟩
    · rw [if_neg ha] at hx
      rcases hsp : splitSep sep rest with _ | ⟨s, ss⟩
      · exact absurd hsp (splitSep_ne_nil sep rest)
      · rw [hsp] at hx
        rcases List.mem_cons.mp hx with h | h
        · subst h
          rcases List.mem_cons.mp hc with h | h
          · subst h; exact ⟨ha, List.mem_cons_self _ _⟩
          · obtain ⟨h1, h2⟩ := ih s (hsp ▸ List.mem_cons_self _ _) c h
            exact ⟨h1, List.mem_cons_of_mem _ h2⟩
        · obtain ⟨h1, h2⟩ := ih x (hsp ▸ List.mem_cons_of_mem _ h) c hc
          exact ⟨h1, List.mem_cons_of_mem _ h2⟩

theorem splitSep_cons_sep (sep : Char) (cs : List Char) :
    splitSep sep (sep :: cs) = [] :: splitSep sep cs := by
  simp [splitSep]

theorem splitSep_of_not_mem (sep : Char) (x : List Char) (hx : sep ∉ x) :
    splitSep sep x = [x] := by
  induction x with
  | nil => simp [splitSep]
  | cons c cx ih =>
    have hc : c ≠ sep := fun h => hx (h ▸ List.mem_cons_self _ _)
    have := ih (fun h => hx (List.mem_cons_of_mem _ h))
    simp [splitSep, if_neg hc, this]

theorem splitSep_append_sep (sep : Char) (x t : List Char) (hx : sep ∉ x) :
    splitSep sep (x ++ sep :: t) = x :: splitSep sep t := by
  induction x with
  | nil => simp [splitSep]
  | cons c cx ih =>
    have hc : c ≠ sep := fun h => hx (h ▸ List.mem_cons_self _ _)
    have := ih (fun h => hx (List.mem_cons_of_mem _ h))
    simp [splitSep, if_neg hc, this]

theorem joinSep_ne_nil (sep : Char) (L : List (List Char)) (hne : L ≠ [])
    (hx : ∀ x ∈ L, x ≠ []) : joinSep sep L ≠ [] := by
  cases L with
  | nil => exact absurd rfl hne
  | cons s rest =>
    cases rest with
    | nil => simpa [joinSep] using hx s (List.mem_cons_self _ _)
    | cons y t => simp [joinSep]

theorem mem_joinSep (sep : Char) (L : List (List Char)) :
    ∀ c ∈ joinSep sep L, c = sep ∨ ∃ x ∈ L, c ∈ x := by
  induction L with
  | nil => simp [joinSep]
  | cons s rest ih =>
    intro c hc
    cases rest with
    | nil =>
      simp only [joinSep] at hc
      exact Or.inr ⟨s, List.mem_cons_self _ _, hc⟩
    | cons y t =>
      simp only [joinSep] at hc
      rcases List.mem_append.mp hc with h | h
      · exact Or.inr ⟨s, List.mem_cons_self _ _, h⟩
      · rcases List.mem_cons.mp h with h | h
        · exact Or.inl h
        · rcases ih c h with h | ⟨x, hx1, hx2⟩
          · exact Or.inl h
          · exact Or.inr ⟨x, List.mem_cons_of_mem _ hx1, hx2⟩

theorem joinSep_getLast? (sep : Char) (L : List (List Char)) (hne : L ≠ [])
    (hx : ∀ x ∈ L, x ≠ []) :
    ∃ x ∈ L, (joinSep sep L).getLast? = x.getLast? := by
  induction L with
  | nil => exact absurd rfl hne
  | cons s rest ih =>
    cases rest with
    | nil => exact ⟨s, List.mem_cons_self _ _, rfl⟩
    | cons y t =>
      obtain ⟨x, hx1, hx2⟩ :=
        ih (by simp) (fun a ha => hx a (List.mem_cons_of_mem _ ha))
      refine ⟨x, List.mem_cons_of_mem _ hx1, ?_⟩
      have hjne : joinSep sep (y :: t) ≠ [] :=
        joinSep_ne_nil sep _ (by simp) (fun a ha => hx a (List.mem_cons_of_mem _ ha))
      rcases hj : joinSep sep (y :: t) with _ | ⟨b, bt⟩
      · exact absurd hj hjne
      · rw [hj] at hx2
        obtain ⟨v, hv⟩ : ∃ v, (b :: bt).getLast? = some v :=
          ⟨(b :: bt).getLast (by simp), List.getLast?_eq_getLast _ (by simp)⟩
        show (s ++ sep :: joinSep sep (y :: t)).getLast? = x.getLast?
        rw [hj, List.getLast?_append, List.getLast?_cons_cons, hv]
        show some v = x.getLast?
        rw [← hv, hx2]

theorem split_joinSep (sep : Char) (L : List (List Char)) (hne : L ≠ [])
    (hx : ∀ x ∈ L, sep ∉ x) :
    splitSep sep (joinSep sep L) = L := by
  induction L with
  | nil => exact absurd rfl hne
  | cons s rest ih =>
    cases rest with
    | nil => exact splitSep_of_not_mem sep s (hx s (List.mem_cons_self _ _))
    | cons y t =>
      show splitSep sep (s ++ sep :: joinSep sep (y :: t)) = _
      rw [splitSep_append_sep sep s _ (hx s (List.mem_cons_self _ _)),
        ih (by simp) (fun a ha => hx a (List.mem_cons_of_mem _ ha))]

theorem split_joinSep_concat (sep : Char) (L : List (List Char)) (hne : L ≠ [])
    (hx : ∀ x ∈ L, sep ∉ x) :
    splitSep sep (joinSep sep L ++ [sep]) = L ++ [[]] := by
  induction L with
  | nil => exact absurd rfl hne
  | cons s rest ih =>
    cases rest with
    | nil =>
      show splitSep sep (s ++ sep :: []) = _
      rw [splitSep_append_sep sep s [] (hx s (List.mem_cons_self _ _))]
      simp [splitSep]
    | cons y t =>
      show splitSep sep ((s ++ sep :: joinSep sep (y :: t)) ++ [sep]) = _
      rw [List.append_assoc, List.cons_append,
        splitSep_append_sep sep s _ (hx s (List.mem_cons_self _ _)),
        ih (by simp) (fun a ha => hx a (List.mem_cons_of_mem _ ha))]
      rfl

theorem cleanSegs_cons (rooted : Bool) (acc : List (List Char)) (seg : List Char)
    (rest : List (List Char)) :
    cleanSegs rooted acc (seg :: rest) = cleanSegs rooted (stepAcc rooted acc seg) rest := by
  simp only [cleanSegs, stepAcc]
  by_cases h1 : seg = [] ∨ seg = ['.']
  · rw [if_pos h1, if_pos h1]
  · rw [if_neg h1, if_neg h1]
    by_cases h2 : seg = ['.', '.']
    · rw [if_pos h2, if_pos h2]
      cases acc with
      | nil =>
        by_cases hr : rooted
        · simp [hr]
        · simp [hr, h2]
      | cons top acc' =>
        by_cases ht : top = ['.', '.']
        · simp [ht]
        · simp [ht]
    · rw [if_neg h2, if_neg h2]

theorem cleanSegs_eq_foldl (rooted : Bool) (segs : List (List Char)) :
    ∀ acc, cleanSegs rooted acc segs = (segs.foldl (stepAcc rooted) acc).reverse := by
  induction segs with
  | nil => intro acc; rfl
  | cons seg rest ih =>
    intro acc
    rw [cleanSegs_cons, ih, List.foldl_cons]

/-- The stack invariant of the rooted clean loop: every stack entry is a
nonempty segment that is neither `.` nor `..` and satisfies `P`, provided
every incoming segment satisfies `P`. -/
theorem foldl_stepAcc_invariant (P : List Char → Prop) (segs : List (List Char))
    (hsegs : ∀ x ∈ segs, P x) :
    ∀ acc, (∀ x ∈ acc, (x ≠ [] ∧ x ≠ ['.'] ∧ x ≠ ['.', '.']) ∧ P x) →
    ∀ y ∈ segs.foldl (stepAcc true) acc,
      (y ≠ [] ∧ y ≠ ['.'] ∧ y ≠ ['.', '.']) ∧ P y := by
  induction segs with
  | nil => intro acc hacc y hy; exact hacc y hy
  | cons seg rest ih =>
    intro acc hacc y hy
    rw [List.foldl_cons] at hy
    refine ih (fun x hx => hsegs x (List.mem_cons_of_mem _ hx)) _ ?_ y hy
    intro x hx
    simp only [stepAcc] at hx
    by_cases h1 : seg = [] ∨ seg = ['.']
    · rw [if_pos h1] at hx; exact hacc x hx
    · rw [if_neg h1] at hx
      by_cases h2 : seg = ['.', '.']
      · rw [if_pos h2] at hx
        cases acc with
        | nil => simp at hx
        | cons top acc' =>
          have htop := hacc top (List.mem_cons_self _ _)
          simp only [if_neg htop.1.2.2] at hx
          exact hacc x (List.mem_cons_of_mem _ hx)
      · rw [if_neg h2] at hx
        rcases List.mem_cons.mp hx with h | h
        · push_neg at h1
          rw [h]
          exact ⟨⟨h1.1, h1.2, h2⟩, hsegs seg (List.mem_cons_self _ _)⟩
        · exact hacc x h

theorem foldl_stepAcc_of_good (segs : List (List Char))
    (h : ∀ x ∈ segs, x ≠ [] ∧ x ≠ ['.'] ∧ x ≠ ['.', '.']) :
    ∀ acc, segs.foldl (stepAcc true) acc = segs.reverse ++ acc := by
  induction segs with
  | nil => intro acc; rfl
  | cons seg rest ih =>
    intro acc
    obtain ⟨h1, h2, h3⟩ := h seg (List.mem_cons_self _ _)
    have hstep : stepAcc true acc seg = seg :: acc := by
      simp only [stepAcc]
      rw [if_neg (by simp [h1, h2]), if_neg h3]
    rw [List.foldl_cons, hstep, ih (fun x hx => h x (List.mem_cons_of_mem _ hx)),
      List.reverse_cons, List.append_assoc]
    rfl

theorem cleanSegs_of_good (segs : List (List Char))
    (h : ∀ x ∈ segs, x ≠ [] ∧ x ≠ ['.'] ∧ x ≠ ['.', '.']) :
    cleanSegs true [] segs = segs := by
  rw [cleanSegs_eq_foldl, foldl_stepAcc_of_good segs h]
  simp

theorem cleanSegs_concat_nil (segs : List (List Char)) :
    cleanSegs true [] (segs ++ [[]]) = cleanSegs true [] segs := by
  rw [cleanSegs_eq_foldl, cleanSegs_eq_foldl, List.foldl_append]
  rfl

theorem goCleanSep_rooted (sep : Char) (cs : List Char) :
    goCleanSep sep ⟨sep :: cs⟩
      = ⟨sep :: joinSep sep (cleanSegs true [] (splitSep sep cs))⟩ := by
  have hne : (⟨sep :: cs⟩ : String) ≠ "" := by
    intro h
    have := congrArg String.data h
    simp at this
  simp [goCleanSep, hne, splitSep_cons_sep, cleanSegs_cons, stepAcc]

theorem sanitizePath_eq_join (p : String) :
    sanitizePath p = ⟨joinSep '/' (comps p)⟩ := by
  have h1 : ("/" ++ replaceBackslashWithSlash p)
      = ⟨'/' :: (replaceBackslashWithSlash p).data⟩ := by
    apply String.ext
    rw [String.data_append]
    rfl
  show trimPrefixSlash (goClean ("/" ++ replaceBackslashWithSlash p)) = _
  rw [goClean, h1, goCleanSep_rooted, trimPrefixSlash]
  simp [comps]

theorem comps_good (p : String) :
    ∀ y ∈ comps p,
      (y ≠ [] ∧ y ≠ ['.'] ∧ y ≠ ['.', '.']) ∧ ∀ c ∈ y, c ≠ '/' ∧ c ≠ '\\' := by
  intro y hy
  rw [comps, cleanSegs_eq_foldl, List.mem_reverse] at hy
  refine foldl_stepAcc_invariant (fun x => ∀ c ∈ x, c ≠ '/' ∧ c ≠ '\\') _ ?_ [] (by simp) y hy
  intro x hx c hc
  obtain ⟨h1, h2⟩ := mem_splitSep '/' _ x hx c hc
  refine ⟨h1, ?_⟩
  have h2' : c ∈ (replaceBackslashWithSlash p).data := h2
  rw [replaceBackslashWithSlash] at h2'
  simp only [List.mem_map] at h2'
  obtain ⟨a, _, ha⟩ := h2'
  by_cases hab : a = '\\'
  · rw [hab] at ha; simp at ha; exact absurd ha.symm h1
  · rw [if_neg hab] at ha; rw [← ha]; exact hab

theorem SanitizePath_eq (input : String) :
    SanitizePath input =
      if 0 < input.length ∧
          (input.data.getLast? = some '/' ∨ input.data.getLast? = some '\\') ∧
          0 < (sanitizePath input).length
      then sanitizePath input ++ "/"
      else sanitizePath input := rfl

theorem sanitizePath_empty : sanitizePath "" = "" := by decide

theorem replace_noop_of_no_backslash (s : String) (h : ∀ c ∈ s.data, c ≠ '\\') :
    replaceBackslashWithSlash s = s := by
  apply String.ext
  show s.data.map _ = s.data
  conv_rhs => rw [← List.map_id s.data]
  refine List.map_congr_left ?_
  intro a ha
  simp [h a ha]

theorem join_comps_no_backslash (p : String) :
    ∀ c ∈ joinSep '/' (comps p), c ≠ '\\' := by
  intro c hc
  rcases mem_joinSep '/' (comps p) c hc with h | ⟨x, hx1, hx2⟩
  · rw [h]; decide
  · exact ((comps_good p x hx1).2 c hx2).2

theorem comps_join (p : String) (hne : comps p ≠ []) :
    comps ⟨joinSep '/' (comps p)⟩ = comps p := by
  rw [comps, replace_noop_of_no_backslash _ (join_comps_no_backslash p)]
  show cleanSegs true [] (splitSep '/' (joinSep '/' (comps p))) = comps p
  rw [split_joinSep '/' _ hne (fun x hx hmem => ((comps_good p x hx).2 '/' hmem).1 rfl),
    cleanSegs_of_good _ (fun x hx => (comps_good p x hx).1)]

theorem sanitizePath_join (p : String) :
    sanitizePath ⟨joinSep '/' (comps p)⟩ = ⟨joinSep '/' (comps p)⟩ := by
  by_cases hne : comps p = []
  · rw [hne]
    exact sanitizePath_empty
  · rw [sanitizePath_eq_join, comps_join p hne]

theorem sanitizePath_join_slash (p : String) (hne : comps p ≠ []) :
    sanitizePath (⟨joinSep '/' (comps p)⟩ ++ "/") = ⟨joinSep '/' (comps p)⟩ := by
  have hs : ((⟨joinSep '/' (comps p)⟩ : String) ++ "/")
      = ⟨joinSep '/' (comps p) ++ ['/']⟩ := by
    apply String.ext
    simp [String.data_append]
  rw [hs, sanitizePath_eq_join]
  show String.mk _ = String.mk _
  congr 1
  have hrep : replaceBackslashWithSlash ⟨joinSep '/' (comps p) ++ ['/']⟩
      = ⟨joinSep '/' (comps p) ++ ['/']⟩ := by
    refine replace_noop_of_no_backslash _ ?_
    intro c hc
    rcases List.mem_append.mp hc with h | h
    · exact join_comps_no_backslash p c h
    · simp at h; rw [h]; decide
  rw [comps, hrep]
  show joinSep '/' (cleanSegs true [] (splitSep '/' (joinSep '/' (comps p) ++ ['/']))) = _
  rw [split_joinSep_concat '/' _ hne (fun x hx hmem => ((comps_good p x hx).2 '/' hmem).1 rfl),
    cleanSegs_concat_nil, cleanSegs_of_good _ (fun x hx => (comps_good p x hx).1)]

theorem strLength (s : String) : s.length = s.data.length := rfl

/-- Idempotence of the full (wrapped) sanitizer: shared helper for the
claims below. -/
theorem SanitizePath_idem (p : String) :
    SanitizePath (SanitizePath p) = SanitizePath p := by
  by_cases hne : comps p = []
  · have hq : sanitizePath p = "" := by
      rw [sanitizePath_eq_join, hne]; rfl
    have h0 : SanitizePath p = "" := by
      rw [SanitizePath_eq, hq, if_neg (by simp)]
    rw [h0]
    decide
  · have hgood : ∀ x ∈ comps p, x ≠ [] := fun x hx => (comps_good p x hx).1.1
    have hjne : joinSep '/' (comps p) ≠ [] := joinSep_ne_nil '/' _ hne hgood
    have hqlen : 0 < (⟨joinSep '/' (comps p)⟩ : String).length := by
      rw [strLength]
      exact List.length_pos.mpr hjne
    by_cases hcond : 0 < p.length ∧
        (p.data.getLast? = some '/' ∨ p.data.getLast? = some '\\') ∧
        0 < (sanitizePath p).length
    · have h1 : SanitizePath p = ⟨joinSep '/' (comps p)⟩ ++ "/" := by
        rw [SanitizePath_eq, if_pos hcond, sanitizePath_eq_join]
      have hcond2 : 0 < ((⟨joinSep '/' (comps p)⟩ : String) ++ "/").length ∧
          (((⟨joinSep '/' (comps p)⟩ : String) ++ "/").data.getLast? = some '/' ∨
            ((⟨joinSep '/' (comps p)⟩ : String) ++ "/").data.getLast? = some '\\') ∧
          0 < (sanitizePath ((⟨joinSep '/' (comps p)⟩ : String) ++ "/")).length := by
        refine ⟨?_, Or.inl ?_, ?_⟩
        · rw [strLength, String.data_append]
          simp
        · rw [String.data_append]
          exact List.getLast?_concat _
        · rw [sanitizePath_join_slash p hne]
          exact hqlen
      rw [h1, SanitizePath_eq, if_pos hcond2, sanitizePath_join_slash p hne]
    · have h1 : SanitizePath p = ⟨joinSep '/' (comps p)⟩ := by
        rw [SanitizePath_eq, if_neg hcond, sanitizePath_eq_join]
      obtain ⟨x, hx, hlast⟩ := joinSep_getLast? '/' (comps p) hne hgood
      have hxne : x ≠ [] := (comps_good p x hx).1.1
      have hc : x.getLast? = some (x.getLast hxne) := List.getLast?_eq_getLast x hxne
      have hcprop := (comps_good p x hx).2 (x.getLast hxne) (List.getLast_mem hxne)
      have hcond2 : ¬(0 < (⟨joinSep '/' (comps p)⟩ : String).length ∧
          ((⟨joinSep '/' (comps p)⟩ : String).data.getLast? = some '/' ∨
            (⟨joinSep '/' (comps p)⟩ : String).data.getLast? = some '\\') ∧
          0 < (sanitizePath ⟨joinSep '/' (comps p)⟩).length) := by
        rintro ⟨-, hor, -⟩
        have hdq : (⟨joinSep '/' (comps p)⟩ : String).data = joinSep '/' (comps p) := rfl
        rcases hor with h | h
        · rw [hdq, hlast, hc] at h
          simp only [Option.some.injEq] at h
          exact hcprop.1 h
        · rw [hdq, hlast, hc] at h
          simp only [Option.some.injEq] at h
          exact hcprop.2 h
      rw [h1, SanitizePath_eq, if_neg hcond2, sanitizePath_join p]

theorem joinSep_head? (sep : Char) (L : List (List Char)) (hne : L ≠ [])
    (hx : ∀ x ∈ L, x ≠ []) :
    ∃ x ∈ L, (joinSep sep L).head? = x.head? := by
  cases L with
  | nil => exact absurd rfl hne
  | cons s rest =>
    refine ⟨s, List.mem_cons_self _ _, ?_⟩
    cases rest with
    | nil => rfl
    | cons y t =>
      show (s ++ sep :: joinSep sep (y :: t)).head? = s.head?
      rcases hs : s with _ | ⟨a, as⟩
      · exact absurd hs (hx s (List.mem_cons_self _ _))
      · simp

theorem SanitizePath_cases (p : String) :
    SanitizePath p = ⟨joinSep '/' (comps p)⟩ ∨
      (SanitizePath p = ⟨joinSep '/' (comps p) ++ ['/']⟩ ∧ comps p ≠ []) := by
  rw [SanitizePath_eq]
  by_cases hcond : 0 < p.length ∧
      (p.data.getLast? = some '/' ∨ p.data.getLast? = some '\\') ∧
      0 < (sanitizePath p).length
  · refine Or.inr ⟨?_, ?_⟩
    · rw [if_pos hcond, sanitizePath_eq_join]
      apply String.ext
      simp [String.data_append]
    · intro hL
      have := hcond.2.2
      rw [sanitizePath_eq_join, hL] at this
      exact absurd this (by decide)
  · rw [if_neg hcond, sanitizePath_eq_join]
    exact Or.inl rfl

/-! ## Claims about the POSIX sanitizer -/

/-- Claim C2, counterexample.  The claim says `SanitizePath p` never begins
with a drive-letter prefix; but the POSIX sanitizer maps `C:\some\thing` to
`C:/some/thing`, which begins with the drive-letter prefix `C:` (the test
suite itself records this expected output). -/
theorem claim2_counterexample :
    SanitizePath "C:\\some\\thing" = "C:/some/thing" ∧
      startsWithDrive (SanitizePath "C:\\some\\thing") = true := by
  constructor <;> decide

/-- Claim C2, amended.  For every input `p`, `SanitizePath p` contains no
`..` slash-separated component, and does not begin with a forward slash or a
backslash (so in particular not with a UNC or NT prefix, which begin with
backslashes); it may however begin with a drive-letter prefix such as `C:`,
which the POSIX variant does not rewrite. -/
theorem claim2_sanitize_no_dotdot_unrooted (p : String) (c : String)
    (hc : c ∈ splitPath (SanitizePath p)) :
    c ≠ ".." ∧
      (SanitizePath p).data.head? ≠ some '/' ∧
      (SanitizePath p).data.head? ≠ some '\\' := by
  have hgoodne : ∀ x ∈ comps p, x ≠ [] := fun x hx => (comps_good p x hx).1.1
  have hnosl : ∀ x ∈ comps p, '/' ∉ x :=
    fun x hx hmem => ((comps_good p x hx).2 '/' hmem).1 rfl
  have hhead : comps p ≠ [] →
      (joinSep '/' (comps p)).head? ≠ some '/' ∧
      (joinSep '/' (comps p)).head? ≠ some '\\' := by
    intro hne
    obtain ⟨x, hx, hh⟩ := joinSep_head? '/' (comps p) hne hgoodne
    rcases hxs : x with _ | ⟨a, as⟩
    · exact absurd hxs (hgoodne x hx)
    · have ha := (comps_good p x hx).2 a (by rw [hxs]; exact List.mem_cons_self _ _)
      rw [hh, hxs]
      constructor
      · intro hcontra
        simp only [List.head?_cons, Option.some.injEq] at hcontra
        exact ha.1 hcontra
      · intro hcontra
        simp only [List.head?_cons, Option.some.injEq] at hcontra
        exact ha.2 hcontra
  rcases SanitizePath_cases p with h | ⟨h, hne⟩
  · by_cases hL : comps p = []
    · rw [h, hL] at hc ⊢
      have hce : c = "" := by
        have hsp : splitPath (⟨joinSep '/' []⟩ : String) = [""] := by decide
        rw [hsp] at hc
        simpa using hc
      rw [hce]
      exact ⟨by decide, by decide, by decide⟩
    · have hsplit : splitSep '/' (joinSep '/' (comps p)) = comps p :=
        split_joinSep '/' _ hL hnosl
      refine ⟨?_, ?_, ?_⟩
      · rw [h] at hc
        unfold splitPath at hc
        rw [show (⟨joinSep '/' (comps p)⟩ : String).data = joinSep '/' (comps p) from rfl,
          hsplit] at hc
        obtain ⟨x, hx, hxc⟩ := List.mem_map.mp hc
        intro heq
        rw [← hxc] at heq
        have : x = ['.', '.'] := congrArg String.data heq
        exact (comps_good p x hx).1.2.2 this
      · rw [h]; exact (hhead hL).1
      · rw [h]; exact (hhead hL).2
  · have hsplit : splitSep '/' (joinSep '/' (comps p) ++ ['/']) = comps p ++ [[]] :=
      split_joinSep_concat '/' _ hne hnosl
    have hjne : joinSep '/' (comps p) ≠ [] := joinSep_ne_nil '/' _ hne hgoodne
    refine ⟨?_, ?_, ?_⟩
    · rw [h] at hc
      unfold splitPath at hc
      rw [show (⟨joinSep '/' (comps p) ++ ['/']⟩ : String).data
          = joinSep '/' (comps p) ++ ['/'] from rfl, hsplit] at hc
      obtain ⟨x, hx, hxc⟩ := List.mem_map.mp hc
      intro heq
      rw [← hxc] at heq
      have hx2 : x = ['.', '.'] := congrArg String.data heq
      rcases List.mem_append.mp hx with hmem | hmem
      · exact (comps_good p x hmem).1.2.2 hx2
      · simp at hmem
        rw [hmem] at hx2
        simp at hx2
    · rw [h]
      show (joinSep '/' (comps p) ++ ['/']).head? ≠ some '/'
      rcases hj : joinSep '/' (comps p) with _ | ⟨a, as⟩
      · exact absurd hj hjne
      · have hthis := (hhead hne).1
        rw [hj] at hthis
        simpa using hthis
    · rw [h]
      show (joinSep '/' (comps p) ++ ['/']).head? ≠ some '\\'
      rcases hj : joinSep '/' (comps p) with _ | ⟨a, as⟩
      · exact absurd hj hjne
      · have hthis := (hhead hne).2
        rw [hj] at hthis
        simpa using hthis

/-- Witness for C2's amended theorem at a concrete traversal input. -/
theorem claim2_witness :
    "some" ∈ splitPath (SanitizePath "../../some/thing") ∧
      ("some" ≠ ".." ∧
        (SanitizePath "../../some/thing").data.head? ≠ some '/' ∧
        (SanitizePath "../../some/thing").data.head? ≠ some '\\') :=
  ⟨by decide, claim2_sanitize_no_dotdot_unrooted "../../some/thing" "some" (by decide)⟩

/-- Claim C3.  The POSIX sanitizer reproduces the published test vectors
byte for byte. -/
theorem claim3_posix_vectors :
    SanitizePath "/some/thing" = "some/thing" ∧
      SanitizePath "\\\\.\\C:\\some\\path" = "C:/some/path" ∧
      SanitizePath "../../some/thing" = "some/thing" ∧
      SanitizePath "some/path/" = "some/path/" ∧
      SanitizePath "something.txt:alternate" = "something.txt:alternate" := by
  refine ⟨?_, ?_, ?_, ?_, ?_⟩ <;> decide

/-- Claim C5.  If the input ends with a slash or backslash then a non-empty
result ends with the platform separator `/`; and when the inner sanitized
path is empty, no separator is appended (the result is the empty string). -/
theorem claim5_trailing_separator (p : String)
    (hend : p.data.getLast? = some '/' ∨ p.data.getLast? = some '\\') :
    (SanitizePath p = "" ∨ (SanitizePath p).data.getLast? = some '/') ∧
      (sanitizePath p = "" → SanitizePath p = "") := by
  have hplen : 0 < p.length := by
    rw [strLength]
    rcases hend with h | h <;>
      · rcases hd : p.data with _ | _
        · rw [hd] at h; simp at h
        · simp [hd]
  constructor
  · by_cases hslen : 0 < (sanitizePath p).length
    · have hcond : 0 < p.length ∧
          (p.data.getLast? = some '/' ∨ p.data.getLast? = some '\\') ∧
          0 < (sanitizePath p).length := ⟨hplen, hend, hslen⟩
      right
      rw [SanitizePath_eq, if_pos hcond, String.data_append]
      exact List.getLast?_concat _
    · left
      have hempty : sanitizePath p = "" := by
        by_contra hne2
        refine hslen ?_
        rw [strLength]
        exact List.length_pos.mpr (fun hdata => hne2 (String.ext hdata))
      rw [SanitizePath_eq, if_neg (fun hcond => by
        rw [hempty] at hcond
        exact absurd hcond.2.2 (by decide)), hempty]
  · intro hempty
    rw [SanitizePath_eq, if_neg (fun hcond => by
      rw [hempty] at hcond
      exact absurd hcond.2.2 (by decide)), hempty]

/-- Witness for C5 at the published trailing-slash vector and at an input
whose sanitized form is empty. -/
theorem claim5_witness :
    ((SanitizePath "some/path/" = "" ∨
        (SanitizePath "some/path/").data.getLast? = some '/') ∧
      (sanitizePath "some/path/" = "" → SanitizePath "some/path/" = "")) ∧
      ((SanitizePath "/" = "" ∨ (SanitizePath "/").data.getLast? = some '/') ∧
        (sanitizePath "/" = "" → SanitizePath "/" = "")) :=
  ⟨claim5_trailing_separator "some/path/" (by decide),
    claim5_trailing_separator "/" (by decide)⟩

/-- Claim C8.  The POSIX `SanitizePath` is idempotent. -/
theorem claim8_idempotent (p : String) :
    SanitizePath (SanitizePath p) = SanitizePath p :=
  SanitizePath_idem p

/-! ## Structural lemmas about the tar filtering reader -/

theorem tar_mutate_linkname (m : Nat) (h : Tar.Header) :
    (Tar.mutate m h).linkname = h.linkname := by
  unfold Tar.mutate
  by_cases h1 : m &&& Tar.SanitizeFileMode ≠ 0 <;>
    by_cases h2 : m &&& Tar.SanitizeFilenames ≠ 0 <;> simp [h1, h2]

theorem tar_mutate_name (m : Nat) (h : Tar.Header) :
    (Tar.mutate m h).name
      = (if m &&& Tar.SanitizeFilenames ≠ 0 then SanitizePath h.name else h.name) := by
  unfold Tar.mutate
  by_cases h1 : m &&& Tar.SanitizeFileMode ≠ 0 <;>
    by_cases h2 : m &&& Tar.SanitizeFilenames ≠ 0 <;> simp [h1, h2]

theorem tar_mutate_mode (m : Nat) (h : Tar.Header) :
    (Tar.mutate m h).mode
      = (if m &&& Tar.SanitizeFileMode ≠ 0 then Tar.maskMode777 h.mode else h.mode) := by
  unfold Tar.mutate
  by_cases h1 : m &&& Tar.SanitizeFileMode ≠ 0 <;>
    by_cases h2 : m &&& Tar.SanitizeFilenames ≠ 0 <;> simp [h1, h2]

theorem tar_dropXattrs_name (m : Nat) (h : Tar.Header) :
    (Tar.applyDropXattrs m h).name = h.name := by
  unfold Tar.applyDropXattrs
  by_cases hd : m &&& Tar.DropXattrs ≠ 0 <;> simp [hd]

theorem tar_dropXattrs_linkname (m : Nat) (h : Tar.Header) :
    (Tar.applyDropXattrs m h).linkname = h.linkname := by
  unfold Tar.applyDropXattrs
  by_cases hd : m &&& Tar.DropXattrs ≠ 0 <;> simp [hd]

theorem tar_dropXattrs_mode (m : Nat) (h : Tar.Header) :
    (Tar.applyDropXattrs m h).mode = h.mode := by
  unfold Tar.applyDropXattrs
  by_cases hd : m &&& Tar.DropXattrs ≠ 0 <;> simp [hd]

/-- A dropped entry (`continue` in any branch of the `Next` loop) leaves the
symlink set unchanged. -/
theorem tarStep_none_set (m : Nat) (s : List String) (h : Tar.Header) (v : Tar.Verdict)
    (s' : List String) (hstep : Tar.step m s h = (v, none, s')) : s' = s := by
  unfold Tar.step at hstep
  by_cases c1 : m &&& Tar.SkipSpecialFiles ≠ 0 ∧ h.typeflag ≠ Tar.TypeReg ∧
      h.typeflag ≠ Tar.TypeDir ∧ h.typeflag ≠ Tar.TypeSymlink
  · simp only [if_pos c1, Prod.mk.injEq] at hstep
    exact hstep.2.2.symm
  · simp only [if_neg c1] at hstep
    by_cases c2 : m &&& Tar.SkipWindowsShortFilenames ≠ 0 ∧
        HasWindowsShortFilenames (Tar.mutate m h).name
    · simp only [if_pos c2, Prod.mk.injEq] at hstep
      exact hstep.2.2.symm
    · simp only [if_neg c2] at hstep
      by_cases c3 : m &&& Tar.PreventSymlinkTraversal ≠ 0
      · simp only [if_pos c3] at hstep
        by_cases c4 : (subPaths (splitPath (Tar.key m (Tar.mutate m h).name))).any
            (fun p => s.contains p) = true
        · simp only [if_pos c4, Prod.mk.injEq] at hstep
          exact hstep.2.2.symm
        · simp only [if_neg c4, Prod.mk.injEq] at hstep
          exact absurd hstep.2.1.symm (by simp)
      · simp only [if_neg c3, Prod.mk.injEq] at hstep
        exact absurd hstep.2.1.symm (by simp)

/-- Characterization of an emitted entry of the `Next` loop: the verdict is
`emitted`, the yielded header is the mutated one, no probed prefix of its
comparison key was in the symlink set, and the set is extended exactly when
the raw header's linkname is non-empty. -/
theorem tarStep_emit (m : Nat) (s : List String) (h : Tar.Header) (v : Tar.Verdict)
    (h' : Tar.Header) (s' : List String)
    (hstep : Tar.step m s h = (v, some h', s')) :
    v = .emitted ∧ h' = Tar.applyDropXattrs m (Tar.mutate m h) ∧
      (m &&& Tar.PreventSymlinkTraversal = 0 → s' = s) ∧
      (m &&& Tar.PreventSymlinkTraversal ≠ 0 →
        ((subPaths (splitPath (Tar.key m (Tar.mutate m h).name))).any
            (fun p => s.contains p)) = false ∧
        s' = (if h.linkname ≠ "" then Tar.key m (Tar.mutate m h).name :: s else s)) := by
  unfold Tar.step at hstep
  by_cases c1 : m &&& Tar.SkipSpecialFiles ≠ 0 ∧ h.typeflag ≠ Tar.TypeReg ∧
      h.typeflag ≠ Tar.TypeDir ∧ h.typeflag ≠ Tar.TypeSymlink
  · simp only [if_pos c1, Prod.mk.injEq] at hstep
    exact absurd hstep.2.1.symm (by simp)
  · simp only [if_neg c1] at hstep
    by_cases c2 : m &&& Tar.SkipWindowsShortFilenames ≠ 0 ∧
        HasWindowsShortFilenames (Tar.mutate m h).name
    · simp only [if_pos c2, Prod.mk.injEq] at hstep
      exact absurd hstep.2.1.symm (by simp)
    · simp only [if_neg c2] at hstep
      by_cases c3 : m &&& Tar.PreventSymlinkTraversal ≠ 0
      · simp only [if_pos c3] at hstep
        by_cases c4 : (subPaths (splitPath (Tar.key m (Tar.mutate m h).name))).any
            (fun p => s.contains p) = true
        · simp only [if_pos c4, Prod.mk.injEq] at hstep
          exact absurd hstep.2.1.symm (by simp)
        · simp only [if_neg c4, Prod.mk.injEq, Option.some.injEq] at hstep
          obtain ⟨hv, hh, hs⟩ := hstep
          rw [tar_mutate_linkname] at hs
          refine ⟨hv.symm, hh.symm, fun hc => absurd hc (by simp [c3]), fun _ => ?_⟩
          exact ⟨Bool.eq_false_iff.mpr c4, hs.symm⟩
      · simp only [if_neg c3, Prod.mk.injEq, Option.some.injEq] at hstep
        obtain ⟨hv, hh, hs⟩ := hstep
        exact ⟨hv.symm, hh.symm, fun _ => hs.symm, fun hc => absurd c3 (by simp [hc])⟩

/-! ## Structural lemmas about the zip filtering reader -/

theorem zip_sanName_mode (m : Nat) (fp : Zip.File) :
    (Zip.sanName m fp).mode = fp.mode := by
  unfold Zip.sanName
  by_cases h1 : m &&& Zip.SanitizeFilenames ≠ 0 <;> simp [h1]

theorem zip_sanName_content (m : Nat) (fp : Zip.File) :
    (Zip.sanName m fp).content = fp.content := by
  unfold Zip.sanName
  by_cases h1 : m &&& Zip.SanitizeFilenames ≠ 0 <;> simp [h1]

theorem zip_sanitizeMode_eq_and (a : Nat) :
    Zip.sanitizeMode a = a &&& 0x8F2FFFFF := by
  show Zip.andNot (Zip.andNot (Zip.andNot (Zip.andNot (Zip.andNot (Zip.andNot a
      Zip.ModeTemporary) Zip.ModeAppend) Zip.ModeExclusive) Zip.ModeSetuid)
      Zip.ModeSetgid) Zip.ModeSticky = a &&& 0x8F2FFFFF
  unfold Zip.andNot
  rw [Nat.and_assoc, Nat.and_assoc, Nat.and_assoc, Nat.and_assoc, Nat.and_assoc]
  congr 1

theorem zip_sanitizeMode_dir_bit (a : Nat) :
    Zip.sanitizeMode a &&& Zip.ModeDir = a &&& Zip.ModeDir := by
  rw [zip_sanitizeMode_eq_and, Nat.and_assoc]
  congr 1

theorem zip_sanitizeMode_symlink_bit (a : Nat) :
    Zip.sanitizeMode a &&& Zip.ModeSymlink = a &&& Zip.ModeSymlink := by
  rw [zip_sanitizeMode_eq_and, Nat.and_assoc]
  congr 1

theorem zipFinish_emit (m : Nat) (s : List String) (f : Zip.File) (v : Zip.Verdict)
    (f' : Zip.File) (s' : List String)
    (hstep : Zip.finishStep m s f = (v, some f', s')) :
    v = .emitted ∧ s' = s ∧ f'.name = f.name ∧ f'.content = f.content ∧
      (f'.mode = f.mode ∨ f'.mode = Zip.sanitizeMode f.mode) ∧
      (m &&& Zip.SanitizeFileMode ≠ 0 → f'.mode = Zip.sanitizeMode f.mode) := by
  unfold Zip.finishStep at hstep
  by_cases c1 : m &&& Zip.SkipSpecialFiles ≠ 0 ∧ Zip.isSpecialFile f = true
  · simp only [if_pos c1, Prod.mk.injEq] at hstep
    exact absurd hstep.2.1.symm (by simp)
  · simp only [if_neg c1] at hstep
    by_cases c2 : m &&& Zip.SanitizeFileMode ≠ 0
    · simp only [if_pos c2, Prod.mk.injEq, Option.some.injEq] at hstep
      obtain ⟨hv, hf, hs⟩ := hstep
      exact ⟨hv.symm, hs.symm, by rw [← hf], by rw [← hf], Or.inr (by rw [← hf]),
        fun _ => by rw [← hf]⟩
    · simp only [if_neg c2, Prod.mk.injEq, Option.some.injEq] at hstep
      obtain ⟨hv, hf, hs⟩ := hstep
      exact ⟨hv.symm, hs.symm, by rw [← hf], by rw [← hf], Or.inl (by rw [← hf]),
        fun hc => absurd hc c2⟩

theorem zipFinish_none (m : Nat) (s : List String) (f : Zip.File) (v : Zip.Verdict)
    (s' : List String) (hstep : Zip.finishStep m s f = (v, none, s')) :
    v = .droppedSpecial ∧ s' = s := by
  unfold Zip.finishStep at hstep
  by_cases c1 : m &&& Zip.SkipSpecialFiles ≠ 0 ∧ Zip.isSpecialFile f = true
  · simp only [if_pos c1, Prod.mk.injEq] at hstep
    exact ⟨hstep.1.symm, hstep.2.2.symm⟩
  · simp only [if_neg c1] at hstep
    by_cases c2 : m &&& Zip.SanitizeFileMode ≠ 0
    · simp only [if_pos c2, Prod.mk.injEq] at hstep
      exact absurd hstep.2.1.symm (by simp)
    · simp only [if_neg c2, Prod.mk.injEq] at hstep
      exact absurd hstep.2.1.symm (by simp)

/-- Characterization of one `applyMagic` iteration with the symlink filter
active: either the prefix walk hits the set and the entry is dropped with
the set unchanged, or the key is recorded exactly when the (possibly
sanitized) entry's mode has the symlink bit, after which the tail of the
loop runs on the possibly-grown set. -/
theorem zipStep_spec (m : Nat) (s : List String) (fp : Zip.File)
    (hpst : m &&& Zip.PreventSymlinkTraversal ≠ 0) :
    ((subPaths (splitPath (trimSuffixSlash (Zip.sanName m fp).name))).any
        (fun p => s.contains p) = true ∧
      Zip.step m s fp = (.droppedSymlink, none, s)) ∨
    ((subPaths (splitPath (trimSuffixSlash (Zip.sanName m fp).name))).any
        (fun p => s.contains p) = false ∧
      Zip.step m s fp =
        Zip.finishStep m
          (if fp.mode &&& Zip.ModeSymlink ≠ 0 then
            trimSuffixSlash (Zip.sanName m fp).name :: s
          else s) (Zip.sanName m fp)) := by
  by_cases c4 : (subPaths (splitPath (trimSuffixSlash (Zip.sanName m fp).name))).any
      (fun p => s.contains p) = true
  · refine Or.inl ⟨c4, ?_⟩
    unfold Zip.step
    simp only [if_pos hpst, if_pos c4]
  · refine Or.inr ⟨Bool.eq_false_iff.mpr c4, ?_⟩
    unfold Zip.step
    simp only [if_pos hpst, if_neg c4, zip_sanName_mode]

theorem zipStep_no_pst (m : Nat) (s : List String) (fp : Zip.File)
    (hpst : m &&& Zip.PreventSymlinkTraversal = 0) :
    Zip.step m s fp = Zip.finishStep m s (Zip.sanName m fp) := by
  unfold Zip.step
  simp only [if_neg (by simp [hpst] : ¬m &&& Zip.PreventSymlinkTraversal ≠ 0)]

/-! ## Claims about the filtering readers: modes and SetSecurityMode -/

/-- Claim C9.  The visible zip file list after `SetSecurityMode(m)` is computed
from the immutable original list and `m` alone; hence `SetSecurityMode` is
idempotent and reversible (an intervening call with any other mode `mPrev`
leaves no trace). -/
theorem claim9_zip_set_security_mode (r : Zip.Reader) (m mPrev : Nat) :
    (Zip.SetSecurityMode r m).file = Zip.applyMagic r.originalFiles m ∧
      Zip.SetSecurityMode (Zip.SetSecurityMode r m) m = Zip.SetSecurityMode r m ∧
      Zip.SetSecurityMode (Zip.SetSecurityMode r mPrev) m = Zip.SetSecurityMode r m :=
  ⟨rfl, rfl, rfl⟩

theorem tar_readAll_mode (m : Nat) (hs : List Tar.Header)
    (hm : m &&& Tar.SanitizeFileMode ≠ 0) :
    ∀ (s : List String) (h' : Tar.Header), h' ∈ Tar.readAll m s hs →
      ∃ h ∈ hs, h'.mode = Tar.maskMode777 h.mode := by
  induction hs with
  | nil => intro s h' hmem; simp [Tar.readAll] at hmem
  | cons h t ih =>
    intro s h' hmem
    simp only [Tar.readAll] at hmem
    rcases hst : Tar.step m s h with ⟨v, out, s2⟩
    rw [hst] at hmem
    cases out with
    | some h2 =>
      simp only at hmem
      rcases List.mem_cons.mp hmem with hh | hh
      · obtain ⟨-, hemit, -, -⟩ := tarStep_emit m s h v h2 s2 hst
        refine ⟨h, List.mem_cons_self _ _, ?_⟩
        rw [hh, hemit, tar_dropXattrs_mode, tar_mutate_mode, if_pos hm]
      · obtain ⟨h0, hmem0, heq⟩ := ih s2 h' hh
        exact ⟨h0, List.mem_cons_of_mem _ hmem0, heq⟩
    | none =>
      simp only at hmem
      obtain ⟨h0, hmem0, heq⟩ := ih s2 h' hmem
      exact ⟨h0, List.mem_cons_of_mem _ hmem0, heq⟩

theorem zip_loop_mode (m : Nat) (files : List Zip.File)
    (hm : m &&& Zip.SanitizeFileMode ≠ 0) :
    ∀ (s : List String) (f' : Zip.File), f' ∈ Zip.loop m s files →
      ∃ f ∈ files, f'.mode = Zip.sanitizeMode f.mode := by
  induction files with
  | nil => intro s f' hmem; simp [Zip.loop] at hmem
  | cons fp t ih =>
    intro s f' hmem
    simp only [Zip.loop] at hmem
    rcases hst : Zip.step m s fp with ⟨v, out, s2⟩
    rw [hst] at hmem
    cases out with
    | some f2 =>
      simp only at hmem
      rcases List.mem_cons.mp hmem with hh | hh
      · refine ⟨fp, List.mem_cons_self _ _, ?_⟩
        by_cases hpst : m &&& Zip.PreventSymlinkTraversal ≠ 0
        · rcases zipStep_spec m s fp hpst with ⟨-, hdrop⟩ | ⟨-, hfin⟩
          · rw [hst] at hdrop
            simp at hdrop
          · rw [hst] at hfin
            obtain ⟨-, -, -, -, -, hmode⟩ := zipFinish_emit _ _ _ _ _ _ hfin.symm
            rw [hh, hmode hm, zip_sanName_mode]
        · rw [zipStep_no_pst m s fp (by omega)] at hst
          obtain ⟨-, -, -, -, -, hmode⟩ := zipFinish_emit _ _ _ _ _ _ hst
          rw [hh, hmode hm, zip_sanName_mode]
      · obtain ⟨f0, hmem0, heq⟩ := ih s2 f' hh
        exact ⟨f0, List.mem_cons_of_mem _ hmem0, heq⟩
    | none =>
      simp only at hmem
      obtain ⟨f0, hmem0, heq⟩ := ih s2 f' hmem
      exact ⟨f0, List.mem_cons_of_mem _ hmem0, heq⟩

/-- If the tar `Next` step emits a header while processing `h`, the emitted
header's mode is `h`'s own mode masked (with `SanitizeFileMode` on). -/
theorem tarStep_mode (m : Nat) (s : List String) (h : Tar.Header) (v : Tar.Verdict)
    (h' : Tar.Header) (s' : List String) (hm : m &&& Tar.SanitizeFileMode ≠ 0)
    (hstep : Tar.step m s h = (v, some h', s')) :
    h'.mode = Tar.maskMode777 h.mode := by
  obtain ⟨-, hemit, -, -⟩ := tarStep_emit m s h v h' s' hstep
  rw [hemit, tar_dropXattrs_mode, tar_mutate_mode, if_pos hm]

/-- If the zip `applyMagic` step emits a file while processing `f`, the
emitted file's mode is `f`'s own mode sanitized (with `SanitizeFileMode` on). -/
theorem zipStep_mode (m : Nat) (s : List String) (f : Zip.File) (v : Zip.Verdict)
    (f' : Zip.File) (s' : List String) (hm : m &&& Zip.SanitizeFileMode ≠ 0)
    (hstep : Zip.step m s f = (v, some f', s')) :
    f'.mode = Zip.sanitizeMode f.mode := by
  by_cases hpst : m &&& Zip.PreventSymlinkTraversal ≠ 0
  · rcases zipStep_spec m s f hpst with ⟨-, hdrop⟩ | ⟨-, hfin⟩
    · rw [hstep] at hdrop
      simp at hdrop
    · rw [hstep] at hfin
      obtain ⟨-, -, -, -, -, hmode⟩ := zipFinish_emit _ _ _ _ _ _ hfin.symm
      rw [hmode hm, zip_sanName_mode]
  · rw [zipStep_no_pst m s f (by omega)] at hstep
    obtain ⟨-, -, -, -, -, hmode⟩ := zipFinish_emit _ _ _ _ _ _ hstep
    rw [hmode hm, zip_sanName_mode]

/-- Over a whole tar archive, the stream of yielded modes is, in order, the
stream of masked original modes of the kept entries (a sublist of the
archive): the i-th yielded header carries the masked mode of the very entry
it was produced from. -/
theorem tar_readAll_mode_sublist (m : Nat) (hs : List Tar.Header)
    (hm : m &&& Tar.SanitizeFileMode ≠ 0) :
    ∀ s : List String, ∃ kept : List Tar.Header, kept.Sublist hs ∧
      (Tar.readAll m s hs).map Tar.Header.mode
        = kept.map (fun h => Tar.maskMode777 h.mode) := by
  induction hs with
  | nil => intro s; exact ⟨[], List.Sublist.refl _, rfl⟩
  | cons h t ih =>
    intro s
    rcases hst : Tar.step m s h with ⟨v, out, s2⟩
    cases out with
    | some h2 =>
      obtain ⟨kept, hsub, hmap⟩ := ih s2
      have hall : Tar.readAll m s (h :: t) = h2 :: Tar.readAll m s2 t := by
        simp only [Tar.readAll, hst]
      have hmode : h2.mode = Tar.maskMode777 h.mode :=
        tarStep_mode m s h v h2 s2 hm hst
      refine ⟨h :: kept, List.Sublist.cons₂ _ hsub, ?_⟩
      rw [hall, List.map_cons, List.map_cons, hmap]
      show h2.mode :: _ = Tar.maskMode777 h.mode :: _
      rw [hmode]
    | none =>
      obtain ⟨kept, hsub, hmap⟩ := ih s2
      have hall : Tar.readAll m s (h :: t) = Tar.readAll m s2 t := by
        simp only [Tar.readAll, hst]
      exact ⟨kept, List.Sublist.cons _ hsub, by rw [hall, hmap]⟩

/-- Zip analogue of the in-order correspondence: the modes coming out of the
`applyMagic` loop are the sanitized original modes of the kept entries. -/
theorem zip_loop_mode_sublist (m : Nat) (files : List Zip.File)
    (hm : m &&& Zip.SanitizeFileMode ≠ 0) :
    ∀ s : List String, ∃ kept : List Zip.File, kept.Sublist files ∧
      (Zip.loop m s files).map Zip.File.mode
        = kept.map (fun f => Zip.sanitizeMode f.mode) := by
  induction files with
  | nil => intro s; exact ⟨[], List.Sublist.refl _, rfl⟩
  | cons fp t ih =>
    intro s
    rcases hst : Zip.step m s fp with ⟨v, out, s2⟩
    cases out with
    | some f2 =>
      obtain ⟨kept, hsub, hmap⟩ := ih s2
      have hall : Zip.loop m s (fp :: t) = f2 :: Zip.loop m s2 t := by
        simp only [Zip.loop, hst]
      have hmode : f2.mode = Zip.sanitizeMode fp.mode :=
        zipStep_mode m s fp v f2 s2 hm hst
      refine ⟨fp :: kept, List.Sublist.cons₂ _ hsub, ?_⟩
      rw [hall, List.map_cons, List.map_cons, hmap]
      show f2.mode :: _ = Zip.sanitizeMode fp.mode :: _
      rw [hmode]
    | none =>
      obtain ⟨kept, hsub, hmap⟩ := ih s2
      have hall : Zip.loop m s (fp :: t) = Zip.loop m s2 t := by
        simp only [Zip.loop, hst]
      exact ⟨kept, List.Sublist.cons _ hsub, by rw [hall, hmap]⟩

/-- Claim C7.  With `SanitizeFileMode` on, every yielded entry carries the
sanitized mode of the very entry it was produced from: whenever the tar
`Next` step emits a header while processing header `h`, the emitted mode is
`h.mode` masked to the low 9 permission bits, and whenever the zip
`applyMagic` step emits a file while processing `f`, the emitted mode is
`f.mode` with the temporary/append/exclusive/setuid/setgid/sticky bits
cleared; consequently over a whole archive the stream of yielded modes is
the in-order stream of sanitized original modes of the kept entries (a
sublist of the archive).  The directory bit is always preserved, and the
concrete mode `setuid|setgid|0o640` sanitizes to `0o640`. -/
theorem claim7_mode_sanitization :
    (∀ (m : Nat) (s s' : List String) (h h' : Tar.Header) (v : Tar.Verdict),
      m &&& Tar.SanitizeFileMode ≠ 0 → Tar.step m s h = (v, some h', s') →
      h'.mode = Tar.maskMode777 h.mode) ∧
    (∀ (m : Nat) (s s' : List String) (f f' : Zip.File) (v : Zip.Verdict),
      m &&& Zip.SanitizeFileMode ≠ 0 → Zip.step m s f = (v, some f', s') →
      f'.mode = Zip.sanitizeMode f.mode) ∧
    (∀ (m : Nat) (s : List String) (hs : List Tar.Header),
      m &&& Tar.SanitizeFileMode ≠ 0 →
      ∃ kept : List Tar.Header, kept.Sublist hs ∧
        (Tar.readAll m s hs).map Tar.Header.mode
          = kept.map (fun h => Tar.maskMode777 h.mode)) ∧
    (∀ (m : Nat) (files : List Zip.File),
      m &&& Zip.SanitizeFileMode ≠ 0 →
      ∃ kept : List Zip.File, kept.Sublist files ∧
        (Zip.applyMagic files m).map Zip.File.mode
          = kept.map (fun f => Zip.sanitizeMode f.mode)) ∧
    (∀ a : Nat, Zip.sanitizeMode a &&& Zip.ModeDir = a &&& Zip.ModeDir) ∧
    Zip.sanitizeMode (Zip.ModeSetuid ||| Zip.ModeSetgid ||| 0o640) = 0o640 := by
  refine ⟨?_, ?_, ?_, ?_, zip_sanitizeMode_dir_bit, by decide⟩
  · intro m s s' h h' v hm hstep
    exact tarStep_mode m s h v h' s' hm hstep
  · intro m s s' f f' v hm hstep
    exact zipStep_mode m s f v f' s' hm hstep
  · intro m s hs hm
    exact tar_readAll_mode_sublist m hs hm s
  · intro m files hm
    exact zip_loop_mode_sublist m files hm []

/-- Witness for C7: processing a tar header with mode `0o4755` under
`SanitizeFileMode` emits that same entry with mode `0o755`, and processing a
zip entry with mode `setuid|setgid|0o640` emits it with mode `0o640`. -/
theorem claim7_witness :
    (Tar.Header.mode ⟨'0', "file.txt", "", 0o755, [], []⟩
        = Tar.maskMode777 (Tar.Header.mode ⟨'0', "file.txt", "", 0o4755, [], []⟩)) ∧
    (Zip.File.mode ⟨"file.txt", 0o640, ""⟩
        = Zip.sanitizeMode (Zip.File.mode
            ⟨"file.txt", Zip.ModeSetuid ||| Zip.ModeSetgid ||| 0o640, ""⟩)) :=
  ⟨claim7_mode_sanitization.1 Tar.SanitizeFileMode [] []
      ⟨'0', "file.txt", "", 0o4755, [], []⟩ ⟨'0', "file.txt", "", 0o755, [], []⟩
      .emitted (by decide) (by decide),
    claim7_mode_sanitization.2.1 Zip.SanitizeFileMode [] []
      ⟨"file.txt", Zip.ModeSetuid ||| Zip.ModeSetgid ||| 0o640, ""⟩
      ⟨"file.txt", 0o640, ""⟩ .emitted (by decide) (by decide)⟩

/-! ## Claim C1: soundness of the symlink-traversal filter -/

theorem tar_readAll_prefix_free (m : Nat) (hs : List Tar.Header)
    (hpst : m &&& Tar.PreventSymlinkTraversal ≠ 0) :
    ∀ (s : List String) (k : String), k ∈ s →
      ∀ e ∈ Tar.readAll m s hs, k ∉ subPaths (splitPath (Tar.key m e.name)) := by
  induction hs with
  | nil => intro s k _ e hmem; simp [Tar.readAll] at hmem
  | cons h t ih =>
    intro s k hk e hmem
    simp only [Tar.readAll] at hmem
    rcases hst : Tar.step m s h with ⟨v, out, s2⟩
    rw [hst] at hmem
    cases out with
    | some h2 =>
      simp only at hmem
      obtain ⟨-, hemit, -, hset⟩ := tarStep_emit m s h v h2 s2 hst
      obtain ⟨hany, hs2⟩ := hset hpst
      rcases List.mem_cons.mp hmem with hh | hh
      · intro hkmem
        rw [hh, hemit, tar_dropXattrs_name] at hkmem
        rw [List.any_eq_false] at hany
        exact hany k hkmem (List.elem_iff.mpr hk)
      · refine ih s2 k ?_ e hh
        rw [hs2]
        by_cases hl : h.linkname ≠ ""
        · rw [if_pos hl]; exact List.mem_cons_of_mem _ hk
        · rw [if_neg hl]; exact hk
    | none =>
      simp only at hmem
      rw [tarStep_none_set m s h v s2 hst] at hmem
      exact ih s k hk e hmem

theorem tar_symlink_soundness (m : Nat) (hs : List Tar.Header)
    (hpst : m &&& Tar.PreventSymlinkTraversal ≠ 0) :
    ∀ s : List String, (Tar.readAll m s hs).Pairwise
      (fun a b => a.linkname ≠ "" →
        Tar.key m a.name ∉ subPaths (splitPath (Tar.key m b.name))) := by
  induction hs with
  | nil => intro s; simp [Tar.readAll]
  | cons h t ih =>
    intro s
    simp only [Tar.readAll]
    rcases hst : Tar.step m s h with ⟨v, out, s2⟩
    cases out with
    | some h2 =>
      simp only
      refine List.Pairwise.cons ?_ (ih s2)
      intro b hb hlink
      obtain ⟨-, hemit, -, hset⟩ := tarStep_emit m s h v h2 s2 hst
      obtain ⟨-, hs2⟩ := hset hpst
      have hlinkraw : h.linkname ≠ "" := by
        rw [hemit, tar_dropXattrs_linkname, tar_mutate_linkname] at hlink
        exact hlink
      have hkey : Tar.key m h2.name ∈ s2 := by
        rw [hs2, if_pos hlinkraw, hemit, tar_dropXattrs_name]
        exact List.mem_cons_self _ _
      exact tar_readAll_prefix_free m t hpst s2 (Tar.key m h2.name) hkey b hb
    | none =>
      simp only
      exact ih s2

theorem zip_loop_prefix_free (m : Nat) (files : List Zip.File)
    (hpst : m &&& Zip.PreventSymlinkTraversal ≠ 0) :
    ∀ (s : List String) (k : String), k ∈ s →
      ∀ e ∈ Zip.loop m s files, k ∉ subPaths (splitPath (trimSuffixSlash e.name)) := by
  induction files with
  | nil => intro s k _ e hmem; simp [Zip.loop] at hmem
  | cons fp t ih =>
    intro s k hk e hmem
    simp only [Zip.loop] at hmem
    rcases hst : Zip.step m s fp with ⟨v, out, s2⟩
    rw [hst] at hmem
    rcases zipStep_spec m s fp hpst with ⟨-, hdrop⟩ | ⟨hany, hfin⟩
    · rw [hst] at hdrop
      simp only [Prod.mk.injEq] at hdrop
      obtain ⟨-, hout, hs2⟩ := hdrop
      rw [hout] at hmem
      simp only at hmem
      rw [hs2] at hmem
      exact ih s k hk e hmem
    · rw [hst] at hfin
      have hsub : k ∈ (if fp.mode &&& Zip.ModeSymlink ≠ 0 then
          trimSuffixSlash (Zip.sanName m fp).name :: s else s) := by
        by_cases hb : fp.mode &&& Zip.ModeSymlink ≠ 0
        · rw [if_pos hb]; exact List.mem_cons_of_mem _ hk
        · rw [if_neg hb]; exact hk
      cases out with
      | some f2 =>
        simp only at hmem
        obtain ⟨-, hs2, hname, -, -, -⟩ := zipFinish_emit _ _ _ _ _ _ hfin.symm
        rcases List.mem_cons.mp hmem with hh | hh
        · intro hkmem
          rw [hh, hname] at hkmem
          rw [List.any_eq_false] at hany
          exact hany k hkmem (List.elem_iff.mpr hk)
        · refine ih s2 k ?_ e hh
          rw [hs2]
          exact hsub
      | none =>
        simp only at hmem
        obtain ⟨-, hs2⟩ := zipFinish_none _ _ _ _ _ hfin.symm
        refine ih s2 k ?_ e hmem
        rw [hs2]
        exact hsub

theorem zip_symlink_soundness (m : Nat) (files : List Zip.File)
    (hpst : m &&& Zip.PreventSymlinkTraversal ≠ 0) :
    ∀ s : List String, (Zip.loop m s files).Pairwise
      (fun a b => a.mode &&& Zip.ModeSymlink ≠ 0 →
        trimSuffixSlash a.name ∉ subPaths (splitPath (trimSuffixSlash b.name))) := by
  induction files with
  | nil => intro s; simp [Zip.loop]
  | cons fp t ih =>
    intro s
    simp only [Zip.loop]
    rcases hst : Zip.step m s fp with ⟨v, out, s2⟩
    rcases zipStep_spec m s fp hpst with ⟨-, hdrop⟩ | ⟨-, hfin⟩
    · rw [hst] at hdrop
      simp only [Prod.mk.injEq] at hdrop
      obtain ⟨-, hout, -⟩ := hdrop
      rw [hout]
      simp only
      exact ih s2
    · rw [hst] at hfin
      cases out with
      | some f2 =>
        simp only
        obtain ⟨-, hs2, hname, -, hmode, -⟩ := zipFinish_emit _ _ _ _ _ _ hfin.symm
        refine List.Pairwise.cons ?_ (ih s2)
        intro b hb hlink
        have hbit : fp.mode &&& Zip.ModeSymlink ≠ 0 := by
          rcases hmode with hmode | hmode
          · rw [hmode, zip_sanName_mode] at hlink
            exact hlink
          · rw [hmode, zip_sanitizeMode_symlink_bit, zip_sanName_mode] at hlink
            exact hlink
        have hkey : trimSuffixSlash f2.name ∈ s2 := by
          rw [hs2, if_pos hbit, hname]
          exact List.mem_cons_self _ _
        exact zip_loop_prefix_free m t hpst s2 (trimSuffixSlash f2.name) hkey b hb
      | none =>
        simp only
        exact ih s2

/-- Claim C1.  With `PreventSymlinkTraversal` enabled, no entry yielded by the
filtering reader (tar or zip) after a previously yielded link entry `L` has
any slash-separated path prefix (the walk over `c[1..k]`) equal to `L`'s
comparison key — the name with a single trailing `/` stripped (for tar after
re-sanitization and optional case folding; a tar link is an entry with
non-empty linkname, a zip link one with the symlink mode bit). -/
theorem claim1_symlink_filter_soundness :
    (∀ (m : Nat) (hs : List Tar.Header), m &&& Tar.PreventSymlinkTraversal ≠ 0 →
      (Tar.readAll m [] hs).Pairwise (fun a b => a.linkname ≠ "" →
        Tar.key m a.name ∉ subPaths (splitPath (Tar.key m b.name)))) ∧
    (∀ (m : Nat) (files : List Zip.File), m &&& Zip.PreventSymlinkTraversal ≠ 0 →
      (Zip.applyMagic files m).Pairwise (fun a b => a.mode &&& Zip.ModeSymlink ≠ 0 →
        trimSuffixSlash a.name ∉ subPaths (splitPath (trimSuffixSlash b.name)))) :=
  ⟨fun m hs hpst => tar_symlink_soundness m hs hpst [],
    fun m files hpst => zip_symlink_soundness m files hpst []⟩

/-- Witness for C1 on concrete two-entry archives in which a link precedes a
regular entry and both are yielded. -/
theorem claim1_witness :
    (Tar.readAll Tar.DefaultSecurityMode []
        [⟨'2', "a", "x", 0o777, [], []⟩, ⟨'0', "b/c", "", 0o644, [], []⟩]).Pairwise
      (fun a b => a.linkname ≠ "" →
        Tar.key Tar.DefaultSecurityMode a.name
          ∉ subPaths (splitPath (Tar.key Tar.DefaultSecurityMode b.name))) ∧
    (Zip.applyMagic [⟨"a", Zip.ModeSymlink ||| 0o777, "x"⟩, ⟨"b/c", 0o644, ""⟩]
        Zip.DefaultSecurityMode).Pairwise
      (fun a b => a.mode &&& Zip.ModeSymlink ≠ 0 →
        trimSuffixSlash a.name ∉ subPaths (splitPath (trimSuffixSlash b.name))) :=
  ⟨claim1_symlink_filter_soundness.1 Tar.DefaultSecurityMode _ (by decide),
    claim1_symlink_filter_soundness.2 Zip.DefaultSecurityMode _ (by decide)⟩

/-! ## Claim C6: which entries seed the symlink set -/

theorem zipFinish_set (m : Nat) (s : List String) (f : Zip.File) (v : Zip.Verdict)
    (out : Option Zip.File) (s' : List String)
    (hstep : Zip.finishStep m s f = (v, out, s')) : s' = s := by
  cases out with
  | some f2 => exact (zipFinish_emit _ _ _ _ _ _ hstep).2.1
  | none => exact (zipFinish_none _ _ _ _ _ hstep).2

/-- Claim C6, counterexample.  The claim says the key is inserted iff the
entry's `linkname` is non-empty "in both the tar and the zip variant".  A
zip header carries no linkname (the link target of a zip symlink is the
entry's body); processing a symlink-mode entry with an empty body — whose
contract-level linkname is therefore empty — still inserts its key `"a"`
into the set, and a following entry `a/b` is dropped accordingly. -/
theorem claim6_counterexample :
    Zip.linkname ⟨"a", Zip.ModeSymlink, ""⟩ = "" ∧
      Zip.step Zip.DefaultSecurityMode [] ⟨"a", Zip.ModeSymlink, ""⟩
        = (.emitted, some ⟨"a", Zip.ModeSymlink, ""⟩, ["a"]) ∧
      (Zip.applyMagic [⟨"a", Zip.ModeSymlink, ""⟩, ⟨"a/b", 0o644, ""⟩]
          Zip.DefaultSecurityMode).map Zip.File.name = ["a"] := by
  refine ⟨by decide, by decide, by decide⟩

/-- Claim C6, amended.  For an entry that reaches the symlink filter and
passes the prefix walk: the tar reader inserts the comparison key iff the
raw header's linkname is non-empty (covering symbolic and hard links), while
the zip reader inserts the key iff the entry's mode has the symlink bit set
(the stored link target is never consulted, and zip has no hard links). -/
theorem claim6_link_insertion
    (m : Nat) (s : List String) (h : Tar.Header) (v : Tar.Verdict)
    (h' : Tar.Header) (s' : List String)
    (hpst : m &&& Tar.PreventSymlinkTraversal ≠ 0)
    (hstep : Tar.step m s h = (v, some h', s'))
    (mz : Nat) (sz : List String) (fp : Zip.File) (vz : Zip.Verdict)
    (outz : Option Zip.File) (sz' : List String)
    (hpstz : mz &&& Zip.PreventSymlinkTraversal ≠ 0)
    (hstepz : Zip.step mz sz fp = (vz, outz, sz'))
    (hvz : vz ≠ .droppedSymlink) :
    s' = (if h.linkname ≠ "" then Tar.key m h'.name :: s else s) ∧
      ((∃ k, sz' = k :: sz) ↔ fp.mode &&& Zip.ModeSymlink ≠ 0) := by
  constructor
  · obtain ⟨-, hemit, -, hset⟩ := tarStep_emit m s h v h' s' hstep
    obtain ⟨-, hs'⟩ := hset hpst
    rw [hs', hemit, tar_dropXattrs_name]
  · rcases zipStep_spec mz sz fp hpstz with ⟨-, hdrop⟩ | ⟨-, hfin⟩
    · rw [hstepz] at hdrop
      simp only [Prod.mk.injEq] at hdrop
      exact absurd hdrop.1 hvz
    · rw [hstepz] at hfin
      have hsz' := zipFinish_set _ _ _ _ _ _ hfin.symm
      constructor
      · rintro ⟨k, hk⟩
        by_contra hbit
        rw [if_neg (show ¬fp.mode &&& Zip.ModeSymlink ≠ 0 from fun hc => hc hbit)] at hsz'
        rw [hsz'] at hk
        exact List.cons_ne_self k sz hk.symm
      · intro hbit
        rw [if_pos hbit] at hsz'
        exact ⟨_, hsz'⟩

/-- Witness for C6's amended theorem: a tar symlink header is recorded under
its key, and a zip symlink-mode entry is recorded while a regular zip entry
passes with the set unchanged. -/
theorem claim6_witness :
    (["a"] : List String) =
        (if (⟨'2', "a", "/", 0o777, [], []⟩ : Tar.Header).linkname ≠ "" then
          Tar.key Tar.DefaultSecurityMode
              (⟨'2', "a", "/", 0o777, [], []⟩ : Tar.Header).name :: []
        else []) ∧
      ((∃ k, (["a"] : List String) = k :: []) ↔
        (⟨"a", Zip.ModeSymlink ||| 0o777, "/"⟩ : Zip.File).mode &&& Zip.ModeSymlink ≠ 0) :=
  claim6_link_insertion Tar.DefaultSecurityMode [] ⟨'2', "a", "/", 0o777, [], []⟩
    .emitted ⟨'2', "a", "/", 0o777, [], []⟩ ["a"] (by decide) (by decide)
    Zip.DefaultSecurityMode [] ⟨"a", Zip.ModeSymlink ||| 0o777, "/"⟩
    .emitted (some ⟨"a", Zip.ModeSymlink ||| 0o777, "/"⟩) ["a"] (by decide) (by decide)
    (by decide)

/-! ## Claim C10: effect of disabling SanitizeFilenames on the symlink filter -/

theorem tar_key_mutate (m : Nat) (h : Tar.Header) :
    Tar.key m (Tar.mutate m h).name = Tar.key m h.name := by
  rw [tar_mutate_name]
  by_cases hsf : m &&& Tar.SanitizeFilenames ≠ 0
  · rw [if_pos hsf]
    unfold Tar.key
    rw [SanitizePath_idem]
  · rw [if_neg hsf]

theorem tar_key_congr (m₁ m₂ : Nat)
    (hci : m₁ &&& Tar.PreventCaseInsensitiveSymlinkTraversal
      = m₂ &&& Tar.PreventCaseInsensitiveSymlinkTraversal) (name : String) :
    Tar.key m₁ name = Tar.key m₂ name := by
  unfold Tar.key
  rw [hci]

theorem tarStep_congr (m₁ m₂ : Nat) (s : List String) (h : Tar.Header)
    (hskip : m₁ &&& Tar.SkipSpecialFiles = m₂ &&& Tar.SkipSpecialFiles)
    (hpst1 : m₁ &&& Tar.PreventSymlinkTraversal ≠ 0)
    (hpst2 : m₂ &&& Tar.PreventSymlinkTraversal ≠ 0)
    (hci : m₁ &&& Tar.PreventCaseInsensitiveSymlinkTraversal
      = m₂ &&& Tar.PreventCaseInsensitiveSymlinkTraversal)
    (hshort1 : m₁ &&& Tar.SkipWindowsShortFilenames = 0)
    (hshort2 : m₂ &&& Tar.SkipWindowsShortFilenames = 0) :
    (Tar.step m₁ s h).1 = (Tar.step m₂ s h).1 ∧
      (Tar.step m₁ s h).2.2 = (Tar.step m₂ s h).2.2 := by
  have hkey : Tar.key m₁ (Tar.mutate m₁ h).name = Tar.key m₂ (Tar.mutate m₂ h).name := by
    rw [tar_key_mutate, tar_key_mutate, tar_key_congr m₁ m₂ hci]
  unfold Tar.step
  by_cases c1 : m₁ &&& Tar.SkipSpecialFiles ≠ 0 ∧ h.typeflag ≠ Tar.TypeReg ∧
      h.typeflag ≠ Tar.TypeDir ∧ h.typeflag ≠ Tar.TypeSymlink
  · have c1' : m₂ &&& Tar.SkipSpecialFiles ≠ 0 ∧ h.typeflag ≠ Tar.TypeReg ∧
        h.typeflag ≠ Tar.TypeDir ∧ h.typeflag ≠ Tar.TypeSymlink := by
      rw [← hskip]; exact c1
    rw [if_pos c1, if_pos c1']
    exact ⟨rfl, rfl⟩
  · have c1' : ¬(m₂ &&& Tar.SkipSpecialFiles ≠ 0 ∧ h.typeflag ≠ Tar.TypeReg ∧
        h.typeflag ≠ Tar.TypeDir ∧ h.typeflag ≠ Tar.TypeSymlink) := by
      rw [← hskip]; exact c1
    have cs1 : ¬(m₁ &&& Tar.SkipWindowsShortFilenames ≠ 0 ∧
        HasWindowsShortFilenames (Tar.mutate m₁ h).name = true) := by simp [hshort1]
    have cs2 : ¬(m₂ &&& Tar.SkipWindowsShortFilenames ≠ 0 ∧
        HasWindowsShortFilenames (Tar.mutate m₂ h).name = true) := by simp [hshort2]
    simp only [if_neg c1, if_neg c1', if_neg cs1, if_neg cs2, if_pos hpst1,
      if_pos hpst2, hkey]
    by_cases c4 : (subPaths (splitPath (Tar.key m₂ (Tar.mutate m₂ h).name))).any
        (fun p => s.contains p) = true
    · simp only [if_pos c4]
      exact ⟨trivial, trivial⟩
    · simp only [if_neg c4, tar_mutate_linkname m₁ h, tar_mutate_linkname m₂ h]
      exact ⟨trivial, trivial⟩

/-- Claim C10, counterexample.  With `SkipWindowsShortFilenames` also enabled,
disabling `SanitizeFilenames` does change what the symlink filter drops: a
link named `a~1/../b` sanitizes to `b` (emitted; key `b` recorded; `b/c`
then dropped by the prefix walk), while unsanitized it is dropped by the
short-filename filter before the symlink filter, so `b/c` survives. -/
theorem claim10_counterexample :
    Tar.verdicts
        (Tar.PreventSymlinkTraversal ||| Tar.SkipWindowsShortFilenames |||
          Tar.SanitizeFilenames) []
        [⟨'2', "a~1/../b", "x", 0o777, [], []⟩, ⟨'0', "b/c", "", 0o644, [], []⟩]
      = [.emitted, .droppedSymlink] ∧
    Tar.verdicts (Tar.PreventSymlinkTraversal ||| Tar.SkipWindowsShortFilenames) []
        [⟨'2', "a~1/../b", "x", 0o777, [], []⟩, ⟨'0', "b/c", "", 0o644, [], []⟩]
      = [.droppedShort, .emitted] := by
  refine ⟨by decide, by decide⟩

/-- Claim C10, amended.  With `PreventSymlinkTraversal` enabled the symlink
key is always re-sanitized (`key` applies `SanitizePath` to the, possibly
already sanitized, current name), so as long as `SkipWindowsShortFilenames`
is disabled, two modes that agree on `SkipSpecialFiles` and on
case-insensitivity — in particular a mode and the same mode with
`SanitizeFilenames` disabled — give every entry of every archive the same
verdict (emitted / dropped, and by which filter). -/
theorem claim10_sanitize_filenames_invariance
    (m₁ m₂ : Nat) (hs : List Tar.Header) (s : List String)
    (hskip : m₁ &&& Tar.SkipSpecialFiles = m₂ &&& Tar.SkipSpecialFiles)
    (hpst1 : m₁ &&& Tar.PreventSymlinkTraversal ≠ 0)
    (hpst2 : m₂ &&& Tar.PreventSymlinkTraversal ≠ 0)
    (hci : m₁ &&& Tar.PreventCaseInsensitiveSymlinkTraversal
      = m₂ &&& Tar.PreventCaseInsensitiveSymlinkTraversal)
    (hshort1 : m₁ &&& Tar.SkipWindowsShortFilenames = 0)
    (hshort2 : m₂ &&& Tar.SkipWindowsShortFilenames = 0) :
    Tar.verdicts m₁ s hs = Tar.verdicts m₂ s hs := by
  induction hs generalizing s with
  | nil => rfl
  | cons h t ih =>
    obtain ⟨hv, hset⟩ :=
      tarStep_congr m₁ m₂ s h hskip hpst1 hpst2 hci hshort1 hshort2
    show (Tar.step m₁ s h).1 :: Tar.verdicts m₁ (Tar.step m₁ s h).2.2 t
        = (Tar.step m₂ s h).1 :: Tar.verdicts m₂ (Tar.step m₂ s h).2.2 t
    rw [hv, hset, ih]

/-- Witness for C10's amended theorem: under the default mode and the default
mode with `SanitizeFilenames` turned off the verdicts coincide. -/
theorem claim10_witness :
    Tar.verdicts Tar.DefaultSecurityMode []
        [⟨'2', "linktoroot", "/", 0o777, [], []⟩,
          ⟨'0', "linktoroot/root/.bashrc", "", 0o644, [], []⟩]
      = Tar.verdicts Tar.PreventSymlinkTraversal []
          [⟨'2', "linktoroot", "/", 0o777, [], []⟩,
            ⟨'0', "linktoroot/root/.bashrc", "", 0o644, [], []⟩] :=
  claim10_sanitize_filenames_invariance Tar.DefaultSecurityMode
    Tar.PreventSymlinkTraversal _ [] (by decide) (by decide) (by decide)
    (by decide) (by decide) (by decide)

/-! ## Claim C4: the Windows reserved-name guard -/

theorem isReservedName_eq (cs : List Char) :
    isReservedName ⟨cs⟩ =
      (decide (reservedNameLength cs ≠ 0) &&
        (cs.drop (reservedNameLength cs)).all goIsSpace) := rfl

theorem spaces_getD : ∀ (t : List Char), (∀ c ∈ t, c = ' ') → ∀ i, t.getD i ' ' = ' '
  | [], _, i => by cases i <;> rfl
  | c :: r, ht, 0 => by
      rw [List.getD_cons_zero]
      exact ht c (List.mem_cons_self _ _)
  | c :: r, ht, (i + 1) => by
      rw [List.getD_cons_succ]
      exact spaces_getD r (fun x hx => ht x (List.mem_cons_of_mem _ hx)) i

theorem spaces_all_goIsSpace (t : List Char) (ht : ∀ c ∈ t, c = ' ') :
    t.all goIsSpace = true := by
  rw [List.all_eq_true]
  intro c hc
  rw [ht c hc]
  decide

theorem foldMatch3 (cs : List Char) (p0 p1 p2 : Char)
    (h : foldMatch cs [p0, p1, p2]) :
    ∃ a b c, cs = [a, b, c] ∧ (a = p0 ∨ a = p0.toLower) ∧
      (b = p1 ∨ b = p1.toLower) ∧ (c = p2 ∨ c = p2.toLower) := by
  cases cs with
  | nil => exact h.elim
  | cons a cs1 =>
    cases cs1 with
    | nil => exact h.2.elim
    | cons b cs2 =>
      cases cs2 with
      | nil => exact h.2.2.elim
      | cons c cs3 =>
        cases cs3 with
        | nil => exact ⟨a, b, c, rfl, h.1, h.2.1, h.2.2.1⟩
        | cons d cs4 => exact h.2.2.2.elim

theorem foldMatch6 (cs : List Char) (p0 p1 p2 p3 p4 p5 : Char)
    (h : foldMatch cs [p0, p1, p2, p3, p4, p5]) :
    ∃ a b c d e f, cs = [a, b, c, d, e, f] ∧ (a = p0 ∨ a = p0.toLower) ∧
      (b = p1 ∨ b = p1.toLower) ∧ (c = p2 ∨ c = p2.toLower) ∧
      (d = p3 ∨ d = p3.toLower) ∧ (e = p4 ∨ e = p4.toLower) ∧
      (f = p5 ∨ f = p5.toLower) := by
  cases cs with
  | nil => exact h.elim
  | cons a cs1 =>
  cases cs1 with
  | nil => exact h.2.elim
  | cons b cs2 =>
  cases cs2 with
  | nil => exact h.2.2.elim
  | cons c cs3 =>
  cases cs3 with
  | nil => exact h.2.2.2.elim
  | cons d cs4 =>
  cases cs4 with
  | nil => exact h.2.2.2.2.elim
  | cons e cs5 =>
  cases cs5 with
  | nil => exact h.2.2.2.2.2.elim
  | cons f cs6 =>
  cases cs6 with
  | nil => exact ⟨a, b, c, d, e, f, rfl, h.1, h.2.1, h.2.2.1, h.2.2.2.1,
      h.2.2.2.2.1, h.2.2.2.2.2.1⟩
  | cons g cs7 => exact h.2.2.2.2.2.2.elim

theorem foldMatch7 (cs : List Char) (p0 p1 p2 p3 p4 p5 p6 : Char)
    (h : foldMatch cs [p0, p1, p2, p3, p4, p5, p6]) :
    ∃ a b c d e f g, cs = [a, b, c, d, e, f, g] ∧ (a = p0 ∨ a = p0.toLower) ∧
      (b = p1 ∨ b = p1.toLower) ∧ (c = p2 ∨ c = p2.toLower) ∧
      (d = p3 ∨ d = p3.toLower) ∧ (e = p4 ∨ e = p4.toLower) ∧
      (f = p5 ∨ f = p5.toLower) ∧ (g = p6 ∨ g = p6.toLower) := by
  cases cs with
  | nil => exact h.elim
  | cons a cs1 =>
  cases cs1 with
  | nil => exact h.2.elim
  | cons b cs2 =>
  cases cs2 with
  | nil => exact h.2.2.elim
  | cons c cs3 =>
  cases cs3 with
  | nil => exact h.2.2.2.elim
  | cons d cs4 =>
  cases cs4 with
  | nil => exact h.2.2.2.2.elim
  | cons e cs5 =>
  cases cs5 with
  | nil => exact h.2.2.2.2.2.elim
  | cons f cs6 =>
  cases cs6 with
  | nil => exact h.2.2.2.2.2.2.elim
  | cons g cs7 =>
  cases cs7 with
  | nil => exact ⟨a, b, c, d, e, f, g, rfl, h.1, h.2.1, h.2.2.1, h.2.2.2.1,
      h.2.2.2.2.1, h.2.2.2.2.2.1, h.2.2.2.2.2.2.1⟩
  | cons i cs8 => exact h.2.2.2.2.2.2.2.elim

/-- Any base matching the claim's reserved-name pattern is accepted by the
code's `isReservedName`. -/
theorem specReserved_isReservedName (base : List Char) (h : specReservedBase base) :
    isReservedName ⟨base⟩ = true := by
  obtain ⟨core, tail, rfl, htail, hpat⟩ := h
  have hsp := spaces_getD tail htail
  have hall := spaces_all_goIsSpace tail htail
  rcases hpat with hm | hm | hm | hm | hm | hm | ⟨pre, d, rfl, hm, hd⟩
  · -- CON
    obtain ⟨a, b, c, rfl, ha, hb, hc⟩ := foldMatch3 core 'C' 'O' 'N' hm
    have ha' : upperAscii a = 'C' := by rcases ha with rfl | rfl <;> decide
    have hb' : upperAscii b = 'O' := by rcases hb with rfl | rfl <;> decide
    have hc' : upperAscii c = 'N' := by rcases hc with rfl | rfl <;> decide
    show isReservedName ⟨a :: b :: c :: tail⟩ = true
    rw [isReservedName_eq]
    have hpre : ((a :: b :: c :: tail).take 3).map upperAscii = ['C', 'O', 'N'] := by
      simp [ha', hb', hc']
    have hno1 : ¬(6 ≤ (a :: b :: c :: tail).length ∧
        (a :: b :: c :: tail).getD 5 ' ' = '$' ∧
        eqFoldList (((a :: b :: c :: tail).drop 3).take 3) ['I', 'N', '$'] = true) := by
      rintro ⟨-, h5, -⟩
      simp only [List.getD_cons_succ] at h5
      rw [hsp 2] at h5
      exact absurd h5 (by decide)
    have hno2 : ¬(7 ≤ (a :: b :: c :: tail).length ∧
        (a :: b :: c :: tail).getD 6 ' ' = '$' ∧
        eqFoldList (((a :: b :: c :: tail).drop 3).take 4) ['O', 'U', 'T', '$'] = true) := by
      rintro ⟨-, h6, -⟩
      simp only [List.getD_cons_succ] at h6
      rw [hsp 3] at h6
      exact absurd h6 (by decide)
    have hlen : reservedNameLength (a :: b :: c :: tail) = 3 := by
      simp only [reservedNameLength]
      rw [if_neg (by simp only [List.length_cons]; omega), hpre, if_pos rfl,
        if_neg hno1, if_neg hno2]
    rw [hlen]
    simp only [List.drop_succ_cons, List.drop_zero]
    rw [hall]
    rfl
  · -- PRN
    obtain ⟨a, b, c, rfl, ha, hb, hc⟩ := foldMatch3 core 'P' 'R' 'N' hm
    have ha' : upperAscii a = 'P' := by rcases ha with rfl | rfl <;> decide
    have hb' : upperAscii b = 'R' := by rcases hb with rfl | rfl <;> decide
    have hc' : upperAscii c = 'N' := by rcases hc with rfl | rfl <;> decide
    show isReservedName ⟨a :: b :: c :: tail⟩ = true
    rw [isReservedName_eq]
    have hpre : ((a :: b :: c :: tail).take 3).map upperAscii = ['P', 'R', 'N'] := by
      simp [ha', hb', hc']
    have hlen : reservedNameLength (a :: b :: c :: tail) = 3 := by
      simp only [reservedNameLength]
      rw [if_neg (by simp only [List.length_cons]; omega), hpre,
        if_neg (by decide), if_pos (by decide)]
    rw [hlen]
    simp only [List.drop_succ_cons, List.drop_zero]
    rw [hall]
    rfl
  · -- AUX
    obtain ⟨a, b, c, rfl, ha, hb, hc⟩ := foldMatch3 core 'A' 'U' 'X' hm
    have ha' : upperAscii a = 'A' := by rcases ha with rfl | rfl <;> decide
    have hb' : upperAscii b = 'U' := by rcases hb with rfl | rfl <;> decide
    have hc' : upperAscii c = 'X' := by rcases hc with rfl | rfl <;> decide
    show isReservedName ⟨a :: b :: c :: tail⟩ = true
    rw [isReservedName_eq]
    have hpre : ((a :: b :: c :: tail).take 3).map upperAscii = ['A', 'U', 'X'] := by
      simp [ha', hb', hc']
    have hlen : reservedNameLength (a :: b :: c :: tail) = 3 := by
      simp only [reservedNameLength]
      rw [if_neg (by simp only [List.length_cons]; omega), hpre,
        if_neg (by decide), if_pos (by decide)]
    rw [hlen]
    simp only [List.drop_succ_cons, List.drop_zero]
    rw [hall]
    rfl
  · -- NUL
    obtain ⟨a, b, c, rfl, ha, hb, hc⟩ := foldMatch3 core 'N' 'U' 'L' hm
    have ha' : upperAscii a = 'N' := by rcases ha with rfl | rfl <;> decide
    have hb' : upperAscii b = 'U' := by rcases hb with rfl | rfl <;> decide
    have hc' : upperAscii c = 'L' := by rcases hc with rfl | rfl <;> decide
    show isReservedName ⟨a :: b :: c :: tail⟩ = true
    rw [isReservedName_eq]
    have hpre : ((a :: b :: c :: tail).take 3).map upperAscii = ['N', 'U', 'L'] := by
      simp [ha', hb', hc']
    have hlen : reservedNameLength (a :: b :: c :: tail) = 3 := by
      simp only [reservedNameLength]
      rw [if_neg (by simp only [List.length_cons]; omega), hpre,
        if_neg (by decide), if_pos (by decide)]
    rw [hlen]
    simp only [List.drop_succ_cons, List.drop_zero]
    rw [hall]
    rfl
  · -- CONIN$
    obtain ⟨a, b, c, d, e, f, rfl, ha, hb, hc, hd, he, hf⟩ :=
      foldMatch6 core 'C' 'O' 'N' 'I' 'N' '$' hm
    have ha' : upperAscii a = 'C' := by rcases ha with rfl | rfl <;> decide
    have hb' : upperAscii b = 'O' := by rcases hb with rfl | rfl <;> decide
    have hc' : upperAscii c = 'N' := by rcases hc with rfl | rfl <;> decide
    have hf' : f = '$' := by rcases hf with rfl | rfl <;> decide
    subst hf'
    show isReservedName ⟨a :: b :: c :: d :: e :: '$' :: tail⟩ = true
    rw [isReservedName_eq]
    have hpre : ((a :: b :: c :: d :: e :: '$' :: tail).take 3).map upperAscii
        = ['C', 'O', 'N'] := by
      simp [ha', hb', hc']
    have hfold : eqFoldList
        (((a :: b :: c :: d :: e :: '$' :: tail).drop 3).take 3) ['I', 'N', '$'] = true := by
      show eqFoldList [d, e, '$'] ['I', 'N', '$'] = true
      rcases hd with rfl | rfl <;> rcases he with rfl | rfl <;> decide
    have hyes1 : 6 ≤ (a :: b :: c :: d :: e :: '$' :: tail).length ∧
        (a :: b :: c :: d :: e :: '$' :: tail).getD 5 ' ' = '$' ∧
        eqFoldList (((a :: b :: c :: d :: e :: '$' :: tail).drop 3).take 3)
          ['I', 'N', '$'] = true := by
      refine ⟨by simp only [List.length_cons]; omega, ?_, hfold⟩
      simp only [List.getD_cons_succ, List.getD_cons_zero]
    have hno2 : ¬(7 ≤ (a :: b :: c :: d :: e :: '$' :: tail).length ∧
        (a :: b :: c :: d :: e :: '$' :: tail).getD 6 ' ' = '$' ∧
        eqFoldList (((a :: b :: c :: d :: e :: '$' :: tail).drop 3).take 4)
          ['O', 'U', 'T', '$'] = true) := by
      rintro ⟨-, h6, -⟩
      simp only [List.getD_cons_succ] at h6
      rw [hsp 0] at h6
      exact absurd h6 (by decide)
    have hlen : reservedNameLength (a :: b :: c :: d :: e :: '$' :: tail) = 6 := by
      simp only [reservedNameLength]
      rw [if_neg (by simp only [List.length_cons]; omega), hpre, if_pos rfl,
        if_pos hyes1, if_neg hno2]
    rw [hlen]
    simp only [List.drop_succ_cons, List.drop_zero]
    rw [hall]
    rfl
  · -- CONOUT$
    obtain ⟨a, b, c, d, e, f, g, rfl, ha, hb, hc, hd, he, hf, hg⟩ :=
      foldMatch7 core 'C' 'O' 'N' 'O' 'U' 'T' '$' hm
    have ha' : upperAscii a = 'C' := by rcases ha with rfl | rfl <;> decide
    have hb' : upperAscii b = 'O' := by rcases hb with rfl | rfl <;> decide
    have hc' : upperAscii c = 'N' := by rcases hc with rfl | rfl <;> decide
    have hg' : g = '$' := by rcases hg with rfl | rfl <;> decide
    subst hg'
    show isReservedName ⟨a :: b :: c :: d :: e :: f :: '$' :: tail⟩ = true
    rw [isReservedName_eq]
    have hpre : ((a :: b :: c :: d :: e :: f :: '$' :: tail).take 3).map upperAscii
        = ['C', 'O', 'N'] := by
      simp [ha', hb', hc']
    have hno1 : ¬(6 ≤ (a :: b :: c :: d :: e :: f :: '$' :: tail).length ∧
        (a :: b :: c :: d :: e :: f :: '$' :: tail).getD 5 ' ' = '$' ∧
        eqFoldList (((a :: b :: c :: d :: e :: f :: '$' :: tail).drop 3).take 3)
          ['I', 'N', '$'] = true) := by
      rintro ⟨-, h5, -⟩
      simp only [List.getD_cons_succ, List.getD_cons_zero] at h5
      rcases hf with rfl | rfl <;> exact absurd h5 (by decide)
    have hfold : eqFoldList
        (((a :: b :: c :: d :: e :: f :: '$' :: tail).drop 3).take 4)
          ['O', 'U', 'T', '$'] = true := by
      show eqFoldList [d, e, f, '$'] ['O', 'U', 'T', '$'] = true
      rcases hd with rfl | rfl <;> rcases he with rfl | rfl <;>
        rcases hf with rfl | rfl <;> decide
    have hyes2 : 7 ≤ (a :: b :: c :: d :: e :: f :: '$' :: tail).length ∧
        (a :: b :: c :: d :: e :: f :: '$' :: tail).getD 6 ' ' = '$' ∧
        eqFoldList (((a :: b :: c :: d :: e :: f :: '$' :: tail).drop 3).take 4)
          ['O', 'U', 'T', '$'] = true := by
      refine ⟨by simp only [List.length_cons]; omega, ?_, hfold⟩
      simp only [List.getD_cons_succ, List.getD_cons_zero]
    have hlen : reservedNameLength (a :: b :: c :: d :: e :: f :: '$' :: tail) = 7 := by
      simp only [reservedNameLength]
      rw [if_neg (by simp only [List.length_cons]; omega), hpre, if_pos rfl,
        if_neg hno1, if_pos hyes2]
    rw [hlen]
    simp only [List.drop_succ_cons, List.drop_zero]
    rw [hall]
    rfl
  · -- COM or LPT followed by a digit or a superscript digit
    have hd' : (d = '1' ∨ d = '2' ∨ d = '3' ∨ d = '4' ∨ d = '5' ∨ d = '6' ∨
        d = '7' ∨ d = '8' ∨ d = '9') ∨ (d = '¹' ∨ d = '²' ∨ d = '³') := by
      tauto
    rcases hm with hm | hm
    · -- COM
      obtain ⟨a, b, c, rfl, ha, hb, hc⟩ := foldMatch3 pre 'C' 'O' 'M' hm
      have ha' : upperAscii a = 'C' := by rcases ha with rfl | rfl <;> decide
      have hb' : upperAscii b = 'O' := by rcases hb with rfl | rfl <;> decide
      have hc' : upperAscii c = 'M' := by rcases hc with rfl | rfl <;> decide
      show isReservedName ⟨a :: b :: c :: d :: tail⟩ = true
      rw [isReservedName_eq]
      have hpre : ((a :: b :: c :: d :: tail).take 3).map upperAscii
          = ['C', 'O', 'M'] := by
        simp [ha', hb', hc']
      have hgd : (a :: b :: c :: d :: tail).getD 3 ' ' = d := by
        simp only [List.getD_cons_succ, List.getD_cons_zero]
      have hlen : reservedNameLength (a :: b :: c :: d :: tail) = 4 := by
        simp only [reservedNameLength]
        rw [if_neg (by simp only [List.length_cons]; omega), hpre,
          if_neg (by decide), if_neg (by decide), if_pos (Or.inl rfl),
          if_pos (by simp only [List.length_cons]; omega), hgd]
        rcases hd' with h9 | h3
        · rw [if_pos h9]
        · rw [if_neg (by rcases h3 with rfl | rfl | rfl <;> decide), if_pos h3]
      rw [hlen]
      simp only [List.drop_succ_cons, List.drop_zero]
      rw [hall]
      rfl
    · -- LPT
      obtain ⟨a, b, c, rfl, ha, hb, hc⟩ := foldMatch3 pre 'L' 'P' 'T' hm
      have ha' : upperAscii a = 'L' := by rcases ha with rfl | rfl <;> decide
      have hb' : upperAscii b = 'P' := by rcases hb with rfl | rfl <;> decide
      have hc' : upperAscii c = 'T' := by rcases hc with rfl | rfl <;> decide
      show isReservedName ⟨a :: b :: c :: d :: tail⟩ = true
      rw [isReservedName_eq]
      have hpre : ((a :: b :: c :: d :: tail).take 3).map upperAscii
          = ['L', 'P', 'T'] := by
        simp [ha', hb', hc']
      have hgd : (a :: b :: c :: d :: tail).getD 3 ' ' = d := by
        simp only [List.getD_cons_succ, List.getD_cons_zero]
      have hlen : reservedNameLength (a :: b :: c :: d :: tail) = 4 := by
        simp only [reservedNameLength]
        rw [if_neg (by simp only [List.length_cons]; omega), hpre,
          if_neg (by decide), if_neg (by decide), if_pos (Or.inr rfl),
          if_pos (by simp only [List.length_cons]; omega), hgd]
        rcases hd' with h9 | h3
        · rw [if_pos h9]
        · rw [if_neg (by rcases h3 with rfl | rfl | rfl <;> decide), if_pos h3]
      rw [hlen]
      simp only [List.drop_succ_cons, List.drop_zero]
      rw [hall]
      rfl

/-- Claim C4.  In the windows sanitizer's reserved-name pass, every component
of the cleaned path whose base (the portion before the first `.`) matches a
reserved device name — `CON`, `PRN`, `AUX`, `NUL`, `CONIN$`, `CONOUT$`, or
`COM`/`LPT` followed by `1`-`9` or `¹ ² ³`, case-insensitively, optionally
followed by trailing ASCII spaces — is rewritten to the base, the literal
suffix `-safe`, then the preserved extension; and concretely
`somedir\LPT1 .foo` sanitizes to `somedir\LPT1 -safe.foo`. -/
theorem claim4_reserved_names :
    (∀ (tmp : String) (part : List Char), part ∈ reservedParts tmp.data →
      specReservedBase (cutChar '.' part).1 →
      processPart part = (cutChar '.' part).1 ++ "-safe".data ++
        (if (cutChar '.' part).2.1 ≠ [] then '.' :: (cutChar '.' part).2.1 else [])) ∧
    SanitizePathWin "somedir\\LPT1 .foo" = "somedir\\LPT1 -safe.foo" := by
  constructor
  · intro tmp part _ hspec
    simp only [processPart]
    rw [if_pos (specReserved_isReservedName _ hspec)]
  · decide

/-- Witness for C4's component statement at the component `LPT1 .foo` of the
cleaned path `somedir\LPT1 .foo`. -/
theorem claim4_witness :
    processPart "LPT1 .foo".data = "LPT1 ".data ++ "-safe".data ++
      (if (cutChar '.' "LPT1 .foo".data).2.1 ≠ []
        then '.' :: (cutChar '.' "LPT1 .foo".data).2.1 else []) := by
  have h := claim4_reserved_names.1 "somedir\\LPT1 .foo" "LPT1 .foo".data
    (by decide)
    ⟨"LPT1".data, [' '], rfl, by decide,
      Or.inr (Or.inr (Or.inr (Or.inr (Or.inr (Or.inr
        ⟨"LPT".data, '1', rfl, Or.inr ⟨Or.inl rfl, Or.inl rfl, Or.inl rfl, trivial⟩,
          Or.inl rfl⟩)))))⟩
  exact h

end Safearchive
